import Mathlib

/-!
Verification development for the vault indexing and retrieval engine of the
obsidian-rag-server repository.

Shallow embedding conventions:
* JavaScript strings are modelled as lists of characters (abbrev Str), with
  ASCII-level case folding and whitespace (the inputs of interest are ASCII).
* External collaborators (the gray-matter frontmatter parser, the JavaScript
  Date parser) are abstract parameters of the embedding.
* Exceptions are modelled with Option / Result values: a none result models a
  thrown exception.
* The embedded code follows the current (Result-typed) revision of the
  repository sources: file-note-repository (Result form), note-searcher,
  note entity, search-result, chunking-service, in-memory-cache, frontmatter.
-/

/-- Text is modelled as a list of characters (a JavaScript string). -/
abbrev Str := List Char

/-- Model of JavaScript toLowerCase at the ASCII level. -/
def lowerStr (s : Str) : Str := s.map Char.toLower

/-- Boolean prefix test on character lists. -/
def isPrefixStr : Str → Str → Bool
  | [], _ => true
  | _ :: _, [] => false
  | p :: ps, c :: cs => p == c && isPrefixStr ps cs

/-- Model of JavaScript s.includes(sub): substring containment. -/
def includesSub (s sub : Str) : Bool :=
  match s with
  | [] => isPrefixStr sub []
  | c :: cs => isPrefixStr sub (c :: cs) || includesSub cs sub

/-- Model of JavaScript s.trim(): strip whitespace from both ends. -/
def trimStr (s : Str) : Str :=
  ((s.dropWhile Char.isWhitespace).reverse.dropWhile Char.isWhitespace).reverse

/-- Elements of a frontmatter array value: strings, dates, or anything else
(modelled opaquely as atomOther; only string elements are ever used). -/
inductive FmAtom where
  | str (s : Str)
  | date (ms : Int)
  | atomOther
deriving DecidableEq, Repr

/-- Frontmatter values as they come out of the YAML parser: strings, dates,
arrays, or anything else (modelled opaquely as fmOther). -/
inductive FmValue where
  | str (s : Str)
  | date (ms : Int)
  | list (xs : List FmAtom)
  | fmOther
deriving DecidableEq, Repr

/-- Frontmatter record: the well-known fields accessed by the code, plus an
open extension map for everything else (never read by the embedded code). -/
structure Frontmatter where
  title : Option FmValue := none
  tags : Option FmValue := none
  created : Option FmValue := none
  updated : Option FmValue := none
  aliases : Option FmValue := none
  extra : List (Str × FmValue) := []
deriving DecidableEq, Repr

/-- Embedding of the Note entity (src/domain/entities/note.ts). -/
structure Note where
  path : Str
  title : Str
  content : Str
  frontmatter : Frontmatter
  tags : List Str
  links : List Str
  createdAt : Int
  modifiedAt : Int
deriving DecidableEq, Repr

/-- Embedding of Note.hasTag: case-insensitive exact tag comparison. -/
def Note.hasTag (n : Note) (tag : Str) : Bool :=
  n.tags.any (fun t => lowerStr t == lowerStr tag)

/-- Embedding of Note.matchesQuery: the query is a case-insensitive substring
of the title or of the content.  Tags are not consulted here. -/
def Note.matchesQuery (n : Note) (query : Str) : Bool :=
  let nq := lowerStr query
  includesSub (lowerStr n.title) nq || includesSub (lowerStr n.content) nq

/-- Characters that are pattern syntax for the JavaScript RegExp constructor.
The dot is the only syntax character whose semantics this model defines;
for the rest the model leaves the behaviour undefined (none). -/
def regexSyntaxChars : List Char :=
  ['^', '$', '\\', '*', '+', '?', '(', ')', '[', ']', '{', '}', '|']

/-- Tokens of the modelled regex fragment: literal characters and the dot. -/
inductive RTok where
  | lit (c : Char)
  | anyChar
deriving DecidableEq, Repr

/-- Interpret a query string as a RegExp pattern, covering the fragment in
which every character is either a literal or the dot metacharacter.  A query
containing any other syntax character falls outside the modelled fragment
(for such queries the real code builds a pattern that is not the literal
query, or the constructor throws, e.g. for an unmatched parenthesis). -/
def parsePattern : Str → Option (List RTok)
  | [] => some []
  | c :: cs =>
    if c = '.' then (parsePattern cs).map (fun ts => RTok.anyChar :: ts)
    else if regexSyntaxChars.contains c then none
    else (parsePattern cs).map (fun ts => RTok.lit c :: ts)

/-- Match the token list against a prefix of the string. -/
def toksMatchAt : List RTok → Str → Bool
  | [], _ => true
  | _ :: _, [] => false
  | t :: ts, c :: cs =>
    (match t with
     | RTok.lit l => l == c
     | RTok.anyChar => !(c == '\n') && !(c == '\r')) && toksMatchAt ts cs

/-- Fuel-driven scan for countMatches; every step consumes at least one
character, so fuel beyond the string length never runs out. -/
def countMatchesF (toks : List RTok) : Nat → Str → Nat
  | 0, _ => 0
  | fuel + 1, s =>
    match s with
    | [] => if toksMatchAt toks [] then 1 else 0
    | c :: cs =>
      if toksMatchAt toks (c :: cs) then
        1 + countMatchesF toks fuel ((c :: cs).drop (max toks.length 1))
      else
        countMatchesF toks fuel cs

/-- Number of non-overlapping left-to-right matches of the token pattern in
the string: the length of str.match(regex) with the global flag. -/
def countMatches (toks : List RTok) (s : Str) : Nat :=
  countMatchesF toks (s.length + 1) s

/-- Embedding of the SearchResult entity fields. -/
structure SearchResult where
  note : Note
  score : Nat
  matchedFields : List Str
deriving DecidableEq, Repr

/-- Occurrence count for one field: the RegExp is built (and can fail) only
when the field actually contains the query. -/
def fieldCount (hit : Bool) (nq field : Str) : Option Nat :=
  if hit then (parsePattern nq).map (fun toks => countMatches toks (lowerStr field))
  else some 0

/-- Embedding of the SearchResult constructor: matched fields and score.
Returns none when the code would throw while building the RegExp. -/
def computeSearchResult (n : Note) (query : Str) : Option SearchResult :=
  let nq := lowerStr query
  let titleHit := includesSub (lowerStr n.title) nq
  let contentHit := includesSub (lowerStr n.content) nq
  let tagsHit := n.tags.any (fun t => includesSub (lowerStr t) nq)
  match fieldCount titleHit nq n.title, fieldCount contentHit nq n.content with
  | some tc, some cc =>
    some
      { note := n
        score :=
          (if titleHit then tc * 2 else 0) + (if contentHit then cc else 0) +
            (if tagsHit then 3 else 0)
        matchedFields :=
          (if titleHit then ["title".toList] else []) ++
            (if contentHit then ["content".toList] else []) ++
              (if tagsHit then ["tags".toList] else []) }
  | _, _ => none

/-- Search options of NoteSearcher.search. -/
structure SearchOptions where
  limit : Option Int := none
deriving DecidableEq, Repr

/-- The result-collection loop of NoteSearcher.search: notes passing
matchesQuery become SearchResults, in input order; a thrown exception
(none) aborts the whole search. -/
def collectResults (query : Str) : List Note → Option (List SearchResult)
  | [] => some []
  | n :: ns =>
    if n.matchesQuery query then
      match computeSearchResult n query, collectResults query ns with
      | some r, some rs => some (r :: rs)
      | _, _ => none
    else collectResults query ns

/-- Stable descending insertion: the new element goes after every element of
at-least-equal score, matching the stable JavaScript sort with comparator
(a, b) => b.score - a.score. -/
def insertResult (r : SearchResult) : List SearchResult → List SearchResult
  | [] => [r]
  | x :: xs => if x.score < r.score then r :: x :: xs else x :: insertResult r xs

/-- Stable sort of results by score descending. -/
def sortByScoreDesc (rs : List SearchResult) : List SearchResult :=
  rs.foldl (fun acc r => insertResult r acc) []

/-- Embedding of NoteSearcher.search. -/
def searchNotes (query : Str) (notes : List Note) (options : SearchOptions) :
    Option (List SearchResult) :=
  if query.isEmpty || (trimStr query).isEmpty then some []
  else
    match collectResults query notes with
    | none => none
    | some results =>
      let sorted := sortByScoreDesc results
      match options.limit with
      | some l => if l ≠ 0 ∧ l > 0 then some (sorted.take l.toNat) else some sorted
      | none => some sorted

example : searchNotes "q".toList [] {} = some [] := by decide

/-!
Embedding of the bounded LRU cache
(src/infrastructure/adapters/secondary/in-memory-cache.ts).
JavaScript Map objects are modelled as insertion-ordered association lists:
setting an existing key updates it in place, setting a new key appends.
-/

/-- Map.has on an association list. -/
def alHas (l : List (Str × α)) (k : Str) : Bool := l.any (fun p => p.1 == k)

/-- Map.get on an association list. -/
def alGet (l : List (Str × α)) (k : Str) : Option α :=
  (l.find? (fun p => p.1 == k)).map Prod.snd

/-- Map.set on an association list: update in place, or append when new. -/
def alSet : List (Str × α) → Str → α → List (Str × α)
  | [], k, v => [(k, v)]
  | (k0, v0) :: rest, k, v =>
    if k0 == k then (k0, v) :: rest else (k0, v0) :: alSet rest k v

/-- Map.delete on an association list. -/
def alDelete : List (Str × α) → Str → List (Str × α)
  | [], _ => []
  | (k0, v0) :: rest, k => if k0 == k then rest else (k0, v0) :: alDelete rest k

/-- State of the InMemoryCacheAdapter: the value map, the access-order map of
logical recency markers, the monotone counter, capacity, and statistics. -/
structure CacheState (T : Type) where
  entries : List (Str × T)
  accessOrder : List (Str × Nat)
  accessCounter : Nat
  maxSize : Nat
  hits : Nat
  misses : Nat
  evictions : Nat

/-- Embedding of the constructor: capacity is clamped below at zero. -/
def mkCache (T : Type) (maxSize : Int) : CacheState T :=
  { entries := [], accessOrder := [], accessCounter := 0,
    maxSize := (max 0 maxSize).toNat, hits := 0, misses := 0, evictions := 0 }

/-- Embedding of get: on a hit return the value and refresh the recency
marker, on a miss return undefined (none). -/
def cacheGet (s : CacheState T) (k : Str) : Option T × CacheState T :=
  if alHas s.entries k then
    (alGet s.entries k,
     { s with hits := s.hits + 1,
              accessOrder := alSet s.accessOrder k s.accessCounter,
              accessCounter := s.accessCounter + 1 })
  else (none, { s with misses := s.misses + 1 })

/-- The loop of evictLRU: find the key with the smallest recency marker
(strictly-smaller comparison, first minimum wins). -/
def findLRU : List (Str × Nat) → Option (Str × Nat) → Option (Str × Nat)
  | [], best => best
  | (k, t) :: rest, none => findLRU rest (some (k, t))
  | (k, t) :: rest, some (bk, bt) =>
    findLRU rest (if t < bt then some (k, t) else some (bk, bt))

/-- Embedding of evictLRU: remove the least-recently-used entry, if any. -/
def evictLRU (s : CacheState T) : CacheState T :=
  match findLRU s.accessOrder none with
  | some (lruKey, _) =>
    { s with entries := alDelete s.entries lruKey,
             accessOrder := alDelete s.accessOrder lruKey,
             evictions := s.evictions + 1 }
  | none => s

/-- Embedding of set: no-op at zero capacity; update in place for an existing
key; otherwise evict the LRU entry when at capacity, then insert. -/
def cacheSet (s : CacheState T) (k : Str) (v : T) : CacheState T :=
  if s.maxSize = 0 then s
  else if alHas s.entries k then
    { s with entries := alSet s.entries k v,
             accessOrder := alSet s.accessOrder k s.accessCounter,
             accessCounter := s.accessCounter + 1 }
  else
    let s1 := if s.entries.length ≥ s.maxSize then evictLRU s else s
    { s1 with entries := alSet s1.entries k v,
              accessOrder := alSet s1.accessOrder k s1.accessCounter,
              accessCounter := s1.accessCounter + 1 }

/-- Embedding of has. -/
def cacheHas (s : CacheState T) (k : Str) : Bool := alHas s.entries k

/-- Embedding of delete. -/
def cacheDelete (s : CacheState T) (k : Str) : Bool × CacheState T :=
  if alHas s.entries k then
    (true, { s with entries := alDelete s.entries k,
                    accessOrder := alDelete s.accessOrder k })
  else (false, s)

/-- Embedding of clear. -/
def cacheClear (s : CacheState T) : CacheState T :=
  { s with entries := [], accessOrder := [], accessCounter := 0 }

/-- Embedding of size. -/
def cacheSize (s : CacheState T) : Nat := s.entries.length

/-- Access-order association list with consecutive recency markers starting
at a given counter value. -/
def ordFrom (a : Nat) : List Str → List (Str × Nat)
  | [] => []
  | k :: ks => (k, a) :: ordFrom (a + 1) ks

/-- Well-formedness invariant of a cache state: the value map and the
access-order map hold the same keys in the same order, keys are unique,
recency markers are unique and below the running counter, and the entry
count respects the capacity. -/
def CacheInv (s : CacheState T) : Prop :=
  s.entries.map Prod.fst = s.accessOrder.map Prod.fst ∧
  (s.accessOrder.map Prod.fst).Nodup ∧
  (s.accessOrder.map Prod.snd).Nodup ∧
  (∀ p ∈ s.accessOrder, p.2 < s.accessCounter) ∧
  (0 < s.maxSize → s.entries.length ≤ s.maxSize)

/-!
Embedding of the chunking service (src/domain/services/chunking-service.ts).
-/

/-- Options for chunking. -/
structure ChunkOptions where
  maxChunkSize : Nat
  overlapSize : Nat
  respectHeaders : Bool
  minChunkSize : Nat
deriving DecidableEq, Repr

/-- The default options of the ChunkingService constructor. -/
def defaultChunkOptions : ChunkOptions :=
  { maxChunkSize := 2000, overlapSize := 200, respectHeaders := true,
    minChunkSize := 100 }

/-- Metadata for a chunk. -/
structure ChunkMetadata where
  noteId : Str
  chunkIndex : Nat
  startLine : Nat
  endLine : Nat
  headerContext : Option Str := none
deriving DecidableEq, Repr

/-- A document chunk ready for embedding. -/
structure DocumentChunk where
  content : Str
  metadata : ChunkMetadata
deriving DecidableEq, Repr

/-- Internal representation of a markdown section. -/
structure MdSection where
  header : Str
  level : Nat
  content : Str
  startLine : Nat
  endLine : Nat
deriving DecidableEq, Repr

/-- Model of JavaScript s.split(newline), keeping empty fields. -/
def splitLinesAux : Str → Str → List Str
  | [], acc => [acc.reverse]
  | c :: cs, acc =>
    if c = '\n' then acc.reverse :: splitLinesAux cs []
    else splitLinesAux cs (c :: acc)

/-- Split a text into its lines at newline characters. -/
def splitLines (s : Str) : List Str := splitLinesAux s []

/-- Match of one line against the header pattern: one to six hash marks, at
least one whitespace character, then a non-empty remainder (with the regex
backtracking rule: when the remainder is all whitespace of length at least
two, the last whitespace character becomes the header text). -/
def headerMatch (line : Str) : Option (Nat × Str) :=
  let hashes := line.takeWhile (fun c => c = '#')
  let rest := line.drop hashes.length
  if 1 ≤ hashes.length ∧ hashes.length ≤ 6 then
    match rest with
    | [] => none
    | c :: _ =>
      if c.isWhitespace then
        let body := rest.dropWhile Char.isWhitespace
        if body ≠ [] then some (hashes.length, body)
        else if rest.length ≥ 2 then
          some (hashes.length, rest.drop (rest.length - 1))
        else none
      else none
  else none

/-- Append one non-header line to the in-progress section. -/
def mdSecAppendLine (sec : MdSection) (line : Str) (i : Nat) : MdSection :=
  { sec with
      content := sec.content ++ (if sec.content ≠ [] then '\n' :: line else line),
      endLine := i }

/-- The line loop of splitByHeaders, carrying the emitted sections and the
in-progress section.  The last branch mirrors the source's handling of
content before the first header, including its append-to-previous arm. -/
def splitByHeadersAux : List Str → Nat → List MdSection → Option MdSection →
    List MdSection
  | [], _, sections, cur =>
    (match cur with | some c => sections ++ [c] | none => sections)
  | line :: rest, i, sections, cur =>
    match headerMatch line with
    | some (lvl, h) =>
      let sections1 := match cur with | some c => sections ++ [c] | none => sections
      splitByHeadersAux rest (i + 1) sections1
        (some { header := h, level := lvl, content := [], startLine := i, endLine := i })
    | none =>
      match cur with
      | some c => splitByHeadersAux rest (i + 1) sections (some (mdSecAppendLine c line i))
      | none =>
        match sections.getLast? with
        | none =>
          splitByHeadersAux rest (i + 1) sections
            (some { header := [], level := 0, content := line, startLine := i, endLine := i })
        | some lastSec =>
          if lastSec.header ≠ [] then
            splitByHeadersAux rest (i + 1) sections
              (some { header := [], level := 0, content := line, startLine := i, endLine := i })
          else
            splitByHeadersAux rest (i + 1)
              (sections.dropLast ++
                [{ lastSec with content := lastSec.content ++ '\n' :: line, endLine := i }])
              none

/-- Embedding of splitByHeaders. -/
def splitByHeaders (content : Str) : List MdSection :=
  splitByHeadersAux (splitLines content) 0 [] none

/-- Sentence terminator characters of the sentence-splitting pattern. -/
def isSentenceTerm (c : Char) : Bool := c = '.' || c = '!' || c = '?'

/-- Fuel-driven scan for the sentence pattern; every emitted match consumes
at least one character, so fuel beyond the string length never runs out. -/
def sentenceScanF : Nat → Str → List Str
  | 0, _ => []
  | fuel + 1, s =>
    let s1 := s.dropWhile isSentenceTerm
    let body := s1.takeWhile (fun c => !isSentenceTerm c)
    let after := s1.drop body.length
    let terms := after.takeWhile isSentenceTerm
    let rest := after.drop terms.length
    if body = [] then []
    else if terms = [] then []
    else (body ++ terms) :: sentenceScanF fuel rest

/-- Global matches of the sentence pattern (a non-empty run of non-terminator
characters followed by a non-empty run of terminators), left to right. -/
def sentenceScan (s : Str) : List Str :=
  sentenceScanF (s.length + 1) s

/-- Embedding of splitIntoSentences: the pattern matches (or the whole text
when there is none), trimmed, with empties dropped. -/
def splitIntoSentences (text : Str) : List Str :=
  let ms := sentenceScan text
  let sentences := if ms = [] then [text] else ms
  (sentences.map trimStr).filter (fun s => s.length > 0)

/-- Index of the last occurrence of a character, if any. -/
def lastIndexOfChar : Str → Char → Option Nat
  | [], _ => none
  | x :: xs, c =>
    match lastIndexOfChar xs c with
    | some i => some (i + 1)
    | none => if x == c then some 0 else none

/-- Embedding of getOverlap: the trailing overlapSize characters, extended
back to just after the last period before the overlap when there is one at a
positive index. -/
def getOverlap (opts : ChunkOptions) (text : Str) : Str :=
  if text.length ≤ opts.overlapSize then text
  else
    let overlapStart := text.length - opts.overlapSize
    let beforeOverlap := text.take overlapStart
    match lastIndexOfChar beforeOverlap '.' with
    | some idx =>
      if idx > 0 then trimStr (text.drop (idx + 1)) else text.drop overlapStart
    | none => text.drop overlapStart

/-- The sentence-packing loop of splitLargeSection, carrying the emitted
chunks, the current chunk and the last computed overlap. -/
def splitLoop (opts : ChunkOptions) :
    List Str → List Str → Str → Str → List Str × Str × Str
  | [], chunks, cur, ov => (chunks, cur, ov)
  | s :: rest, chunks, cur, ov =>
    if cur.length + s.length ≤ opts.maxChunkSize then
      splitLoop opts rest chunks (cur ++ s) ov
    else if cur.length ≥ opts.minChunkSize then
      let ov1 := getOverlap opts cur
      splitLoop opts rest (chunks ++ [cur]) (ov1 ++ s) ov1
    else
      splitLoop opts rest chunks (cur ++ s) ov

/-- Embedding of splitLargeSection. -/
def splitLargeSection (opts : ChunkOptions) (content : Str) : List Str :=
  match splitLoop opts (splitIntoSentences content) [] [] [] with
  | (chunks, cur, ov) =>
    if cur.length > 0 ∧ cur ≠ ov then chunks ++ [cur] else chunks

/-- Full rendered text of a section: the reconstructed header line plus the
body, or just the body for a headerless section. -/
def sectionFullContent (sec : MdSection) : Str :=
  if sec.header ≠ [] then
    (List.replicate sec.level '#') ++ (' ' :: sec.header) ++ ('\n' :: sec.content)
  else sec.content

/-- Embedding of chunkSection: one chunk when the section fits, otherwise the
parts of splitLargeSection with sequential chunk indices. -/
def chunkSection (opts : ChunkOptions) (sec : MdSection) (noteId : Str) :
    List DocumentChunk :=
  let fullContent := sectionFullContent sec
  if fullContent.length ≤ opts.maxChunkSize then
    [{ content := fullContent,
       metadata :=
         { noteId := noteId, chunkIndex := 0, startLine := sec.startLine,
           endLine := sec.endLine,
           headerContext := if sec.header ≠ [] then some sec.header else none } }]
  else
    (splitLargeSection opts fullContent).enum.map (fun p =>
      { content := p.2,
        metadata :=
          { noteId := noteId, chunkIndex := p.1, startLine := sec.startLine,
            endLine := sec.endLine,
            headerContext := if sec.header ≠ [] then some sec.header else none } })

/-- Index of the last occurrence of a character at or before an index. -/
def lastIndexOfCharLe (s : Str) (c : Char) (fromIdx : Nat) : Option Nat :=
  lastIndexOfChar (s.take (fromIdx + 1)) c

/-- The loop of simpleChunk.  The source loop can fail to terminate for
degenerate option values (overlap at least the chunk length); the fuel bounds
the iteration count and is large enough for all non-degenerate runs. -/
def simpleChunkLoop (opts : ChunkOptions) (content noteId : Str) :
    Nat → Nat → Nat → List DocumentChunk
  | 0, _, _ => []
  | fuel + 1, start, idx =>
    if start < content.length then
      let end0 := min (start + opts.maxChunkSize) content.length
      let endPos :=
        if end0 < content.length then
          match lastIndexOfCharLe content ' ' end0 with
          | some ls => if ls > start + opts.minChunkSize then ls else end0
          | none => end0
        else end0
      let chunkContent := (content.take endPos).drop start
      let nextStart := endPos - opts.overlapSize
      { content := chunkContent,
        metadata :=
          { noteId := noteId, chunkIndex := idx, startLine := 0, endLine := 0 } } ::
        (if nextStart ≥ content.length - opts.minChunkSize then []
         else simpleChunkLoop opts content noteId fuel nextStart (idx + 1))
    else []

/-- Embedding of simpleChunk. -/
def simpleChunk (opts : ChunkOptions) (content noteId : Str) : List DocumentChunk :=
  simpleChunkLoop opts content noteId (content.length + 1) 0 0

/-- Embedding of ChunkingService.chunk. -/
def chunkDoc (opts : ChunkOptions) (content noteId : Str) : List DocumentChunk :=
  if content = [] ∨ (trimStr content).length = 0 then []
  else if opts.respectHeaders then
    (splitByHeaders content).flatMap (fun sec => chunkSection opts sec noteId)
  else simpleChunk opts content noteId


/-!
Embedding of the note repository
(src/infrastructure/adapters/secondary/file-note-repository.ts, Result-typed
revision), together with the frontmatter normalization helpers
(src/domain/types/frontmatter.ts), the Result type (src/domain/types/result.ts)
and the domain errors (src/domain/errors/note-errors.ts).
-/

/-- Embedding of the discriminated Result type. -/
inductive Result (T E : Type) where
  | ok (value : T)
  | err (error : E)
deriving DecidableEq, Repr

/-- Embedding of the domain error hierarchy; each case keeps the payload the
constructor stores in its context. -/
inductive DomainError where
  | noteNotFound (path : Str)
  | invalidNotePath (path reason : Str)
  | noteParsing (path : Str)
  | vaultNotFound (vaultPath : Str)
  | vaultAccess (vaultPath : Str)
  | fileSystem (operation path : Str)
  | invalidFrontmatter (path field reason : Str)
deriving DecidableEq, Repr

/-- Normalized frontmatter after processing. -/
structure NormalizedFrontmatter where
  tags : List Str
  aliases : List Str
  created : Option Int := none
  updated : Option Int := none
  raw : Frontmatter
deriving DecidableEq, Repr

/-- Embedding of normalizeToArray: a falsy value (absent field or empty
string) gives [], a string gives a singleton, an array keeps its string
elements, anything else gives []. -/
def normalizeToArray (v : Option FmValue) : List Str :=
  match v with
  | none => []
  | some (FmValue.str []) => []
  | some (FmValue.str s) => [s]
  | some (FmValue.list xs) =>
    xs.filterMap (fun a => match a with | FmAtom.str s => some s | _ => none)
  | some (FmValue.date _) => []
  | some FmValue.fmOther => []

/-- Embedding of parseDate, parameterized by the external JavaScript Date
parser (some = a valid date, none = an invalid one). -/
def parseFmDate (jsDate : Str → Option Int) (v : Option FmValue) : Option Int :=
  match v with
  | none => none
  | some (FmValue.date ms) => some ms
  | some (FmValue.str []) => none
  | some (FmValue.str s) => jsDate s
  | some (FmValue.list _) => none
  | some FmValue.fmOther => none

/-- Embedding of normalizeFrontmatter. -/
def normalizeFrontmatter (jsDate : Str → Option Int) (raw : Frontmatter) :
    NormalizedFrontmatter :=
  { tags := normalizeToArray raw.tags
    aliases := normalizeToArray raw.aliases
    created := parseFmDate jsDate raw.created
    updated := parseFmDate jsDate raw.updated
    raw := raw }

/-- Match of one line against the title pattern: a single hash mark, at least
one whitespace character, then a non-empty remainder (same backtracking rule
as the section-header pattern). -/
def titleLineMatch (line : Str) : Option Str :=
  match line with
  | '#' :: rest =>
    match rest with
    | [] => none
    | c :: _ =>
      if c.isWhitespace then
        let body := rest.dropWhile Char.isWhitespace
        if body ≠ [] then some body
        else if rest.length ≥ 2 then some (rest.drop (rest.length - 1))
        else none
      else none
  | _ => none

/-- Embedding of extractTitle: a truthy string frontmatter title, else the
first level-1 heading line, else the fixed placeholder. -/
def extractTitle (fm : Frontmatter) (content : Str) : Str :=
  match fm.title with
  | some (FmValue.str (c :: cs)) => c :: cs
  | _ =>
    match (splitLines content).findSome? titleLineMatch with
    | some t => t
    | none => "Untitled".toList

/-- Characters allowed inside an inline tag. -/
def isTagChar (c : Char) : Bool := c.isAlphanum || c = '_' || c = '-'

/-- Fuel-driven scan for the inline-tag pattern; every step consumes at
least one character, so fuel beyond the string length never runs out. -/
def tagScanF : Nat → Str → List Str
  | 0, _ => []
  | fuel + 1, s =>
    match s with
    | [] => []
    | c :: rest =>
      if c = '#' then
        let run := rest.takeWhile isTagChar
        if run ≠ [] then run :: tagScanF fuel (rest.drop run.length) else tagScanF fuel rest
      else tagScanF fuel rest

/-- Global matches of the inline-tag pattern: a hash mark followed by a
non-empty run of tag characters, scanning left to right. -/
def tagScan (s : Str) : List Str :=
  tagScanF (s.length + 1) s

/-- Fuel-driven order-preserving deduplication; the fuel only needs to cover
the list length. -/
def dedupKeepFirstF [DecidableEq α] : Nat → List α → List α
  | 0, _ => []
  | fuel + 1, l =>
    match l with
    | [] => []
    | x :: xs => x :: dedupKeepFirstF fuel (xs.filter (fun y => ¬ y = x))

/-- Order-preserving deduplication, keeping the first occurrence: the order
in which a JavaScript Set collects elements. -/
def dedupKeepFirst [DecidableEq α] (l : List α) : List α :=
  dedupKeepFirstF l.length l

/-- Embedding of extractContentTags: the inline-tag matches, deduplicated in
first-occurrence order. -/
def extractContentTags (content : Str) : List Str :=
  dedupKeepFirst (tagScan content)

/-- Attempted match of the wikilink pattern at the start of the string: the
link target and the number of characters the whole match consumes. -/
def linkMatchAt (s : Str) : Option (Str × Nat) :=
  match s with
  | '[' :: '[' :: rest =>
    let target := rest.takeWhile (fun c => ¬ (c = ']' ∨ c = '|'))
    let after := rest.drop target.length
    if target ≠ [] then
      match after with
      | ']' :: ']' :: _ => some (target, 2 + target.length + 2)
      | '|' :: rest2 =>
        let aliasTxt := rest2.takeWhile (fun c => ¬ c = ']')
        let after2 := rest2.drop aliasTxt.length
        if aliasTxt ≠ [] then
          match after2 with
          | ']' :: ']' :: _ => some (target, 2 + target.length + 1 + aliasTxt.length + 2)
          | _ => none
        else none
      | _ => none
    else none
  | _ => none

/-- Fuel-driven scan for the wikilink pattern; every step consumes at least
one character, so fuel beyond the string length never runs out. -/
def linkScanF : Nat → Str → List Str
  | 0, _ => []
  | fuel + 1, s =>
    match s with
    | [] => []
    | c :: rest =>
      match linkMatchAt (c :: rest) with
      | some (target, n) => target :: linkScanF fuel ((c :: rest).drop (max n 1))
      | none => linkScanF fuel rest

/-- Global matches of the wikilink pattern: a doubly-bracketed target with an
optional display alias; the alias is discarded and the target kept.  When no
match starts at the current position the scan advances one character. -/
def linkScan (s : Str) : List Str :=
  linkScanF (s.length + 1) s

/-- Embedding of extractLinks. -/
def extractLinks (content : Str) : List Str := linkScan content

/-- Stat record of the storage abstraction. -/
structure FileStat where
  isFile : Bool
  isDirectory : Bool
  createdAt : Int
  modifiedAt : Int
deriving DecidableEq, Repr

/-- Outcome of readFile on a storage entry: the content, or a thrown error
whose message does or does not mention ENOENT. -/
inductive FileReadResult where
  | ok (content : Str)
  | enoent
  | otherError
deriving DecidableEq, Repr

mutual
/-- One entry of the storage tree: a node with its stat record, readFile
outcome and readdir outcome, or an entry whose stat call throws. -/
inductive FsEntry where
  | node (stat : FileStat) (content : FileReadResult) (listing : FsListing)
  | statError

/-- Outcome of readdir on a directory: a listing of named entries, or a
thrown error. -/
inductive FsListing where
  | fail
  | ok (entries : List (Str × FsEntry))
end

/-- External collaborators and configuration of the repository: the vault
root path, the ignored folder prefixes, the gray-matter parser (none = it
throws) and the JavaScript Date parser. -/
structure RepoEnv where
  vaultPath : Str
  ignoredFolders : List Str
  matterFn : Str → Option (Frontmatter × Str)
  jsDate : Str → Option Int

/-- Boolean suffix test on character lists. -/
def isSuffixStr (suf s : Str) : Bool := isPrefixStr suf.reverse s.reverse

/-- Embedding of loadNote: read and parse one markdown file into a Note,
with per-file errors returned (not thrown). -/
def loadNote (env : RepoEnv) (fullPath relativePath : Str) (stat : FileStat)
    (content : FileReadResult) : Result Note DomainError :=
  match content with
  | FileReadResult.enoent => Result.err (DomainError.fileSystem "read".toList fullPath)
  | FileReadResult.otherError => Result.err (DomainError.noteParsing relativePath)
  | FileReadResult.ok raw =>
    match env.matterFn raw with
    | none => Result.err (DomainError.noteParsing relativePath)
    | some (rawFm, noteContent) =>
      let normalized := normalizeFrontmatter env.jsDate rawFm
      let title := extractTitle rawFm noteContent
      let contentTags := extractContentTags noteContent
      let allTags := dedupKeepFirst (normalized.tags ++ contentTags)
      let links := extractLinks noteContent
      Result.ok
        { path := relativePath
          title := title
          content := noteContent
          frontmatter := rawFm
          tags := allTags
          links := links
          createdAt := match normalized.created with
                       | some d => d
                       | none => stat.createdAt
          modifiedAt := match normalized.updated with
                        | some d => d
                        | none => stat.modifiedAt }

mutual
/-- Embedding of loadAllNotes for one directory: a readdir failure becomes a
vault-access error for that directory. -/
def loadListing (env : RepoEnv) : FsListing → Str → Str → Result (List Note) DomainError
  | FsListing.fail, dirPath, _ => Result.err (DomainError.vaultAccess dirPath)
  | FsListing.ok entries, dirPath, relativePath => loadEntries env entries dirPath relativePath

/-- The entry loop of loadAllNotes: ignored prefixes are skipped, failed
subdirectories and failed notes are logged and skipped, a stat failure
aborts the whole directory. -/
def loadEntries (env : RepoEnv) : List (Str × FsEntry) → Str → Str → Result (List Note) DomainError
  | [], _, _ => Result.ok []
  | (name, entry) :: rest, dirPath, relativePath =>
    if env.ignoredFolders.any (fun folder => isPrefixStr folder name) then
      loadEntries env rest dirPath relativePath
    else
      let fullPath := dirPath ++ ('/' :: name)
      let notePath := if relativePath ≠ [] then relativePath ++ ('/' :: name) else name
      match entry with
      | FsEntry.statError => Result.err (DomainError.vaultAccess dirPath)
      | FsEntry.node stat content listing =>
        if stat.isDirectory then
          match loadListing env listing fullPath notePath with
          | Result.err _ => loadEntries env rest dirPath relativePath
          | Result.ok sub =>
            match loadEntries env rest dirPath relativePath with
            | Result.ok more => Result.ok (sub ++ more)
            | Result.err e => Result.err e
        else if stat.isFile && isSuffixStr ".md".toList name then
          match loadNote env fullPath notePath stat content with
          | Result.ok n =>
            match loadEntries env rest dirPath relativePath with
            | Result.ok more => Result.ok (n :: more)
            | Result.err e => Result.err e
          | Result.err _ => loadEntries env rest dirPath relativePath
        else loadEntries env rest dirPath relativePath
end

/-- Repository state: the in-memory snapshot. -/
structure RepoState where
  notesCache : List Note
deriving DecidableEq, Repr

/-- Embedding of findAll: rescan the storage tree; replace the snapshot only
on success. -/
def findAll (env : RepoEnv) (root : FsListing) (st : RepoState) :
    Result (List Note) DomainError × RepoState :=
  match loadListing env root env.vaultPath [] with
  | Result.ok notes => (Result.ok notes, { notesCache := notes })
  | Result.err e => (Result.err e, st)

/-- Embedding of findByPath: scan first when the snapshot is empty, then look
the path up in the snapshot. -/
def findByPath (env : RepoEnv) (root : FsListing) (st : RepoState) (path : Str) :
    Result (Option Note) DomainError × RepoState :=
  if st.notesCache.length = 0 then
    match findAll env root st with
    | (Result.err e, st1) => (Result.err e, st1)
    | (Result.ok _, st1) =>
      (Result.ok (st1.notesCache.find? (fun n => n.path == path)), st1)
  else (Result.ok (st.notesCache.find? (fun n => n.path == path)), st)

/-- Embedding of findByFolder: scan first when the snapshot is empty, then
filter by the normalized folder prefix. -/
def findByFolder (env : RepoEnv) (root : FsListing) (st : RepoState) (folder : Str) :
    Result (List Note) DomainError × RepoState :=
  if st.notesCache.length = 0 then
    match findAll env root st with
    | (Result.err e, st1) => (Result.err e, st1)
    | (Result.ok _, st1) =>
      let normalizedFolder := if isSuffixStr "/".toList folder then folder else folder ++ "/".toList
      (Result.ok (st1.notesCache.filter (fun n => isPrefixStr normalizedFolder n.path)), st1)
  else
    let normalizedFolder := if isSuffixStr "/".toList folder then folder else folder ++ "/".toList
    (Result.ok (st.notesCache.filter (fun n => isPrefixStr normalizedFolder n.path)), st)

/-- Tag-count accumulation of getAllTags over a snapshot. -/
def countTags (notes : List Note) : List (Str × Nat) :=
  notes.foldl
    (fun acc n =>
      n.tags.foldl (fun acc2 t => alSet acc2 t ((alGet acc2 t).getD 0 + 1)) acc)
    []

/-- Embedding of getAllTags: scan first when the snapshot is empty, then
count tag occurrences. -/
def getAllTags (env : RepoEnv) (root : FsListing) (st : RepoState) :
    Result (List (Str × Nat)) DomainError × RepoState :=
  if st.notesCache.length = 0 then
    match findAll env root st with
    | (Result.err e, st1) => (Result.err e, st1)
    | (Result.ok _, st1) => (Result.ok (countTags st1.notesCache), st1)
  else (Result.ok (countTags st.notesCache), st)

/-- Stable descending insertion by modification time. -/
def insertNoteDesc (x : Note) : List Note → List Note
  | [] => [x]
  | y :: ys => if y.modifiedAt < x.modifiedAt then x :: y :: ys else y :: insertNoteDesc x ys

/-- Stable sort of notes by modification time descending. -/
def sortNotesByModifiedDesc (ns : List Note) : List Note :=
  ns.foldl (fun acc n => insertNoteDesc n acc) []

/-- Model of JavaScript slice(0, endIdx), including a negative end index. -/
def jsSlice0 (l : List α) (endIdx : Int) : List α :=
  if endIdx ≥ 0 then l.take endIdx.toNat
  else l.take (l.length - (-endIdx).toNat)

/-- Embedding of getRecentlyModified: scan first when the snapshot is empty,
then sort by modification time descending and slice. -/
def getRecentlyModified (env : RepoEnv) (root : FsListing) (st : RepoState) (limit : Int) :
    Result (List Note) DomainError × RepoState :=
  if st.notesCache.length = 0 then
    match findAll env root st with
    | (Result.err e, st1) => (Result.err e, st1)
    | (Result.ok _, st1) =>
      (Result.ok (jsSlice0 (sortNotesByModifiedDesc st1.notesCache) limit), st1)
  else (Result.ok (jsSlice0 (sortNotesByModifiedDesc st.notesCache) limit), st)

/-- Budget of a line list: total character count plus one per line (the
newline separators plus one).  Splitting a text into lines gives a budget of
one more than the text length. -/
def lineBudget : List Str → Nat
  | [] => 0
  | l :: rest => 1 + l.length + lineBudget rest

/-- Strip from every chunk the leading overlap it shares with its
predecessor (the overlap the code computed from that predecessor) and
concatenate the remainders.  This is the reconstruction operator of the
specification's round-trip invariant. -/
def stripOverlaps (opts : ChunkOptions) : Str → List Str → Str
  | _, [] => []
  | prev, c :: rest => c.drop (getOverlap opts prev).length ++ stripOverlaps opts c rest

/-- Concatenation of a chunk list with each chunk's leading overlap (shared
with its predecessor) removed; the first chunk is kept whole. -/
def reconstructFromChunks (opts : ChunkOptions) : List Str → Str
  | [] => []
  | c :: rest => c ++ stripOverlaps opts c rest

/-!
Concrete fixtures used by witnesses and counterexamples.
-/

/-- Fixture builder for notes with default frontmatter and timestamps. -/
def fixNote (p t c : String) (tags : List String) : Note :=
  { path := p.toList, title := t.toList, content := c.toList, frontmatter := {},
    tags := tags.map String.toList, links := [], createdAt := 0, modifiedAt := 0 }

/-- Fixture: a note matching a query only through its tags. -/
def tagOnlyNote : Note := fixNote "t.md" "My Note" "Some content" ["javascript", "testing"]

/-- Fixture: a note whose title contains an unmatched parenthesis. -/
def parenNote : Note := fixNote "p.md" "a(b" "xy" []

/-- Fixture: a note whose title contains a literal dot. -/
def dotNote : Note := fixNote "d.md" "a.b" "xy" []

/-- Fixture: a note whose title and content contain the letter a. -/
def aNote : Note := fixNote "a.md" "aa" "aa" []

/-- Fixture: a note matching a query in both its title and a tag. -/
def jsNote : Note := fixNote "j.md" "javascript guide" "other stuff" ["javascript"]

/-- Fixture chunking options used by the chunking counterexamples. -/
def smallChunkOpts : ChunkOptions :=
  { maxChunkSize := 10, overlapSize := 3, respectHeaders := true, minChunkSize := 3 }

/-- Fixture chunking options from the specification scenario. -/
def specChunkOpts : ChunkOptions :=
  { maxChunkSize := 200, overlapSize := 50, respectHeaders := true, minChunkSize := 50 }

/-- Fixture headerless section used by the chunking round-trip claims. -/
def c3Section : MdSection :=
  { header := [], level := 0, content := "Aa bb. Cc dd. Ee ff. Gg hh.".toList,
    startLine := 0, endLine := 0 }

/-- Fixture repository environment whose frontmatter parser returns a fixed
record with a Spanish tag, and whose date parser always fails. -/
def spanishEnv : RepoEnv :=
  { vaultPath := "/vault".toList
    ignoredFolders := []
    matterFn := fun _ =>
      some ({ tags := some (FmValue.list [FmAtom.str "Spanish".toList]) }, "#spanish hi".toList)
    jsDate := fun _ => none }

/-- Fixture stat record. -/
def fixStat : FileStat := { isFile := true, isDirectory := false, createdAt := 5, modifiedAt := 7 }

/-- Fixture repository environment whose frontmatter parser returns a record
with a created date, and whose date parser always fails. -/
def dateEnv : RepoEnv :=
  { vaultPath := "/vault".toList
    ignoredFolders := []
    matterFn := fun _ => some ({ created := some (FmValue.date 42) }, "x".toList)
    jsDate := fun _ => none }

/-- Tags of a load result, for stating concrete evaluations. -/
def noteTagsOf (r : Result Note DomainError) : List Str :=
  match r with
  | Result.ok n => n.tags
  | Result.err _ => []

/-!
Theorems.  First the lemma stack for the searcher: permutation, sortedness
and stability of the descending insertion sort, and the structure of the
result-collection loop.
-/

theorem insertResult_perm (r : SearchResult) (l : List SearchResult) :
    List.Perm (insertResult r l) (r :: l) := by
  induction l with
  | nil => simp [insertResult]
  | cons x xs ih =>
    simp only [insertResult]
    by_cases hlt : x.score < r.score
    · simp [hlt]
    · simp only [hlt, if_false]
      exact (ih.cons x).trans (List.Perm.swap r x xs)

theorem insertResult_mem (r : SearchResult) (l : List SearchResult) (y : SearchResult) :
    y ∈ insertResult r l ↔ y = r ∨ y ∈ l := by
  rw [(insertResult_perm r l).mem_iff]
  simp

theorem insertResult_pairwise (r : SearchResult) (l : List SearchResult)
    (h : l.Pairwise (fun a b => b.score ≤ a.score)) :
    (insertResult r l).Pairwise (fun a b => b.score ≤ a.score) := by
  induction l with
  | nil => simp [insertResult]
  | cons x xs ih =>
    rw [List.pairwise_cons] at h
    obtain ⟨hx, hxs⟩ := h
    simp only [insertResult]
    by_cases hlt : x.score < r.score
    · simp only [hlt, if_true]
      refine List.pairwise_cons.mpr ⟨?_, List.pairwise_cons.mpr ⟨hx, hxs⟩⟩
      intro b hb
      rcases List.mem_cons.mp hb with hb | hb
      · exact hb ▸ Nat.le_of_lt hlt
      · exact Nat.le_trans (hx b hb) (Nat.le_of_lt hlt)
    · simp only [hlt, if_false]
      refine List.pairwise_cons.mpr ⟨?_, ih hxs⟩
      intro b hb
      rcases (insertResult_mem r xs b).mp hb with hb | hb
      · exact hb ▸ Nat.le_of_not_lt hlt
      · exact hx b hb

theorem insertResult_filter (s : Nat) (r : SearchResult) (l : List SearchResult)
    (h : l.Pairwise (fun a b => b.score ≤ a.score)) :
    (insertResult r l).filter (fun x => x.score == s) =
      l.filter (fun x => x.score == s) ++ (if r.score = s then [r] else []) := by
  induction l with
  | nil =>
    simp only [insertResult, List.filter_nil, List.nil_append, List.filter]
    by_cases hrs : r.score = s
    · simp [hrs]
    · have hb : (r.score == s) = false := by simp [hrs]
      simp [hb, hrs]
  | cons x xs ih =>
    rw [List.pairwise_cons] at h
    obtain ⟨hx, hxs⟩ := h
    simp only [insertResult]
    by_cases hlt : x.score < r.score
    · simp only [hlt, if_true]
      by_cases hrs : r.score = s
      · have hnone : ∀ y ∈ x :: xs, ¬ (y.score == s) = true := by
          intro y hy
          have hy2 : y.score ≤ x.score := by
            rcases List.mem_cons.mp hy with hy | hy
            · exact hy ▸ Nat.le_refl _
            · exact hx y hy
          have : y.score < s := by omega
          simp [Nat.ne_of_lt this]
        have hfe : (x :: xs).filter (fun x => x.score == s) = [] :=
          List.filter_eq_nil_iff.mpr hnone
        rw [List.filter_cons]
        simp only [hrs, beq_self_eq_true, if_true, hfe, List.nil_append, if_pos rfl]
      · rw [List.filter_cons]
        have : ¬ (r.score == s) = true := by simp [hrs]
        simp [this, hrs]
    · simp only [hlt, if_false]
      rw [List.filter_cons, List.filter_cons, ih hxs]
      by_cases hxx : (x.score == s) = true
      · simp [hxx]
      · simp [hxx]

theorem foldl_insert_perm (rs : List SearchResult) :
    ∀ acc, List.Perm (rs.foldl (fun a r => insertResult r a) acc) (acc ++ rs) := by
  induction rs with
  | nil => intro acc; simp
  | cons r rs ih =>
    intro acc
    simp only [List.foldl_cons]
    refine (ih (insertResult r acc)).trans ?_
    refine ((insertResult_perm r acc).append_right rs).trans ?_
    exact List.perm_middle.symm

theorem foldl_insert_pairwise (rs : List SearchResult) :
    ∀ acc, acc.Pairwise (fun a b => b.score ≤ a.score) →
      (rs.foldl (fun a r => insertResult r a) acc).Pairwise (fun a b => b.score ≤ a.score) := by
  induction rs with
  | nil => intro acc h; simpa using h
  | cons r rs ih =>
    intro acc h
    simp only [List.foldl_cons]
    exact ih (insertResult r acc) (insertResult_pairwise r acc h)

theorem foldl_insert_filter (s : Nat) (rs : List SearchResult) :
    ∀ acc, acc.Pairwise (fun a b => b.score ≤ a.score) →
      (rs.foldl (fun a r => insertResult r a) acc).filter (fun x => x.score == s) =
        acc.filter (fun x => x.score == s) ++ rs.filter (fun x => x.score == s) := by
  induction rs with
  | nil => intro acc _; simp
  | cons r rs ih =>
    intro acc h
    simp only [List.foldl_cons]
    rw [ih (insertResult r acc) (insertResult_pairwise r acc h),
        insertResult_filter s r acc h, List.filter_cons]
    by_cases hrs : r.score = s
    · have hb : (r.score == s) = true := by simp [hrs]
      simp [hb, hrs]
    · have hb : (r.score == s) = false := by simp [hrs]
      simp [hb, hrs]

theorem sortByScoreDesc_perm (rs : List SearchResult) :
    List.Perm (sortByScoreDesc rs) rs := by
  simpa using foldl_insert_perm rs []

theorem sortByScoreDesc_pairwise (rs : List SearchResult) :
    (sortByScoreDesc rs).Pairwise (fun a b => b.score ≤ a.score) :=
  foldl_insert_pairwise rs [] (List.Pairwise.nil)

theorem sortByScoreDesc_filter (s : Nat) (rs : List SearchResult) :
    (sortByScoreDesc rs).filter (fun x => x.score == s) =
      rs.filter (fun x => x.score == s) := by
  simpa using foldl_insert_filter s rs [] (List.Pairwise.nil)

theorem computeSearchResult_note (n : Note) (q : Str) (r : SearchResult)
    (h : computeSearchResult n q = some r) : r.note = n := by
  simp only [computeSearchResult] at h
  split at h
  · injection h with h2
    rw [← h2]
  · exact absurd h (by simp)

theorem computeSearchResult_tags (n : Note) (q : Str) (r : SearchResult)
    (h : computeSearchResult n q = some r)
    (ht : n.tags.any (fun t => includesSub (lowerStr t) (lowerStr q)) = true) :
    "tags".toList ∈ r.matchedFields ∧ 3 ≤ r.score := by
  simp only [computeSearchResult] at h
  split at h
  · injection h with h2
    rw [← h2]
    simp only [ht, if_true]
    constructor
    · simp
    · omega
  · exact absurd h (by simp)

theorem computeSearchResult_tag_bonus (n : Note) (q : Str) (r : SearchResult)
    (h : computeSearchResult n q = some r) :
    ∃ r2, computeSearchResult { n with tags := [] } q = some r2 ∧
      "tags".toList ∉ r2.matchedFields ∧
      (n.tags.any (fun t => includesSub (lowerStr t) (lowerStr q)) = true →
        r.score = r2.score + 3 ∧
        r.matchedFields = r2.matchedFields ++ ["tags".toList]) ∧
      (n.tags.any (fun t => includesSub (lowerStr t) (lowerStr q)) = false →
        r.score = r2.score ∧ r.matchedFields = r2.matchedFields) := by
  simp only [computeSearchResult] at h
  cases h1 : fieldCount (includesSub (lowerStr n.title) (lowerStr q)) (lowerStr q) n.title with
  | none => rw [h1] at h; exact absurd h (by simp)
  | some tc =>
  cases h2 : fieldCount (includesSub (lowerStr n.content) (lowerStr q)) (lowerStr q) n.content with
  | none => rw [h1, h2] at h; exact absurd h (by simp)
  | some cc =>
  rw [h1, h2] at h
  injection h with h
  refine ⟨{ note := { n with tags := [] }
            score := (if includesSub (lowerStr n.title) (lowerStr q) then tc * 2 else 0) +
              (if includesSub (lowerStr n.content) (lowerStr q) then cc else 0)
            matchedFields :=
              (if includesSub (lowerStr n.title) (lowerStr q) then ["title".toList] else []) ++
                (if includesSub (lowerStr n.content) (lowerStr q) then ["content".toList] else []) },
          ?_, ?_, ?_, ?_⟩
  · simp [computeSearchResult, h1, h2]
  · cases hth : includesSub (lowerStr n.title) (lowerStr q) <;>
      cases hch : includesSub (lowerStr n.content) (lowerStr q) <;>
        simp [hth, hch]
  · intro ht
    rw [← h]
    simp only [ht, if_true]
    constructor
    · dsimp only
    · simp [List.append_assoc]
  · intro ht
    rw [← h]
    simp only [ht]
    constructor
    · simp
    · simp

theorem collectResults_mem (q : Str) (notes : List Note) :
    ∀ cand, collectResults q notes = some cand →
      ∀ r ∈ cand, r.note ∈ notes ∧ r.note.matchesQuery q = true ∧
        computeSearchResult r.note q = some r := by
  induction notes with
  | nil =>
    intro cand hc r hr
    simp only [collectResults] at hc
    injection hc with hc
    rw [← hc] at hr
    exact absurd hr (List.not_mem_nil r)
  | cons n ns ih =>
    intro cand hc r hr
    simp only [collectResults] at hc
    by_cases hm : n.matchesQuery q = true
    · rw [if_pos hm] at hc
      cases hcr : computeSearchResult n q with
      | none => rw [hcr] at hc; exact absurd hc (by simp)
      | some r0 =>
        rw [hcr] at hc
        cases hrest : collectResults q ns with
        | none => rw [hrest] at hc; exact absurd hc (by simp)
        | some rs =>
          rw [hrest] at hc
          injection hc with hc
          rw [← hc] at hr
          rcases List.mem_cons.mp hr with hr | hr
          · subst hr
            have hn := computeSearchResult_note n q r hcr
            rw [hn]
            exact ⟨List.mem_cons_self n ns, hm, hcr⟩
          · obtain ⟨h1, h2, h3⟩ := ih rs hrest r hr
            exact ⟨List.mem_cons_of_mem n h1, h2, h3⟩
    · rw [if_neg hm] at hc
      obtain ⟨h1, h2, h3⟩ := ih cand hc r hr
      exact ⟨List.mem_cons_of_mem n h1, h2, h3⟩

theorem collectResults_complete (q : Str) (notes : List Note) :
    ∀ cand, collectResults q notes = some cand →
      ∀ n ∈ notes, n.matchesQuery q = true → ∃ r ∈ cand, r.note = n := by
  induction notes with
  | nil => intro cand _ n hn; exact absurd hn (List.not_mem_nil n)
  | cons m ns ih =>
    intro cand hc n hn hq
    simp only [collectResults] at hc
    by_cases hm : m.matchesQuery q = true
    · rw [if_pos hm] at hc
      cases hcr : computeSearchResult m q with
      | none => rw [hcr] at hc; exact absurd hc (by simp)
      | some r0 =>
        rw [hcr] at hc
        cases hrest : collectResults q ns with
        | none => rw [hrest] at hc; exact absurd hc (by simp)
        | some rs =>
          rw [hrest] at hc
          injection hc with hc
          rcases List.mem_cons.mp hn with hn | hn
          · subst hn
            refine ⟨r0, ?_, computeSearchResult_note n q r0 hcr⟩
            rw [← hc]
            exact List.mem_cons_self r0 rs
          · obtain ⟨r, hr1, hr2⟩ := ih rs hrest n hn hq
            refine ⟨r, ?_, hr2⟩
            rw [← hc]
            exact List.mem_cons_of_mem r0 hr1
    · rw [if_neg hm] at hc
      rcases List.mem_cons.mp hn with hn | hn
      · subst hn; exact absurd hq (by simp [hm])
      · exact ih cand hc n hn hq

theorem searchNotes_nonblank (q : Str) (notes : List Note) (opts : SearchOptions)
    (hq1 : q ≠ []) (hq2 : trimStr q ≠ []) :
    searchNotes q notes opts =
      (collectResults q notes).map (fun results =>
        match opts.limit with
        | some l =>
          if l ≠ 0 ∧ l > 0 then (sortByScoreDesc results).take l.toNat
          else sortByScoreDesc results
        | none => sortByScoreDesc results) := by
  unfold searchNotes
  have h1 : q.isEmpty = false := by
    cases q with
    | nil => exact absurd rfl hq1
    | cons c cs => rfl
  have h2 : (trimStr q).isEmpty = false := by
    cases hh : trimStr q with
    | nil => exact absurd hh hq2
    | cons c cs => rfl
  rw [h1, h2]
  cases hc : collectResults q notes with
  | none => simp [hc]
  | some cand =>
    simp only [hc, Option.map_some', Bool.or_self, Bool.false_eq_true, if_false]
    cases hl : opts.limit with
    | none => rfl
    | some l =>
      by_cases hpos : l ≠ 0 ∧ l > 0
      · simp [hpos]
      · simp [hpos]

/-- Claim C2 (amended): search includes a note only when the query is a
case-insensitive substring of its title or content; a note whose only match
is in its tags is excluded.  For an included note, a tag containing the
query adds the tags field to matchedFields and a fixed bonus of exactly 3
to the score: the score decomposes as the score of the identical note with
its tags removed (the title/content part, scored by the same search) plus
3, and the bonus (and the tags field) is absent whenever no tag contains
the query; with no limit every matching note yields a result. -/
theorem claim_C2_tag_bonus_gate (query : Str) (notes : List Note)
    (opts : SearchOptions) (res : List SearchResult)
    (hs : searchNotes query notes opts = some res) :
    (∀ r ∈ res, r.note ∈ notes ∧ r.note.matchesQuery query = true ∧
      (r.note.tags.any (fun t => includesSub (lowerStr t) (lowerStr query)) = true →
        "tags".toList ∈ r.matchedFields ∧ 3 ≤ r.score ∧
        ∃ r2, computeSearchResult { r.note with tags := [] } query = some r2 ∧
          "tags".toList ∉ r2.matchedFields ∧
          r.score = r2.score + 3 ∧
          r.matchedFields = r2.matchedFields ++ ["tags".toList]) ∧
      (r.note.tags.any (fun t => includesSub (lowerStr t) (lowerStr query)) = false →
        "tags".toList ∉ r.matchedFields ∧
        ∃ r2, computeSearchResult { r.note with tags := [] } query = some r2 ∧
          r.score = r2.score ∧ r.matchedFields = r2.matchedFields)) ∧
    (opts.limit = none → query ≠ [] → trimStr query ≠ [] →
      ∀ n ∈ notes, n.matchesQuery query = true → ∃ r ∈ res, r.note = n) := by
  by_cases hq1 : query = []
  · subst hq1
    unfold searchNotes at hs
    simp only [List.isEmpty_nil, Bool.true_or, if_true] at hs
    injection hs with hs
    subst hs
    constructor
    · intro r hr; exact absurd hr (List.not_mem_nil r)
    · intro _ hql; exact absurd rfl hql
  · by_cases hq2 : trimStr query = []
    · unfold searchNotes at hs
      have h2 : (trimStr query).isEmpty = true := by rw [hq2]; rfl
      have hcond : (query.isEmpty || (trimStr query).isEmpty) = true := by
        rw [h2, Bool.or_true]
      rw [if_pos hcond] at hs
      injection hs with hs
      subst hs
      constructor
      · intro r hr; exact absurd hr (List.not_mem_nil r)
      · intro _ _ hqt; exact absurd hq2 hqt
    · rw [searchNotes_nonblank query notes opts hq1 hq2] at hs
      cases hc : collectResults query notes with
      | none => rw [hc] at hs; exact absurd hs (by simp)
      | some cand =>
        rw [hc] at hs
        simp only [Option.map_some'] at hs
        injection hs with hs
        have hsub : ∀ r ∈ res, r ∈ cand := by
          intro r hr
          have hsort : r ∈ sortByScoreDesc cand := by
            rw [← hs] at hr
            cases hl : opts.limit with
            | none => rw [hl] at hr; exact hr
            | some l =>
              rw [hl] at hr
              have hr2 :
                  r ∈ (if l ≠ 0 ∧ l > 0 then (sortByScoreDesc cand).take l.toNat
                       else sortByScoreDesc cand) := hr
              by_cases hpos : l ≠ 0 ∧ l > 0
              · rw [if_pos hpos] at hr2
                exact List.take_subset _ _ hr2
              · rw [if_neg hpos] at hr2
                exact hr2
          exact (sortByScoreDesc_perm cand).mem_iff.mp hsort
        constructor
        · intro r hr
          obtain ⟨h1, h2, h3⟩ := collectResults_mem query notes cand hc r (hsub r hr)
          obtain ⟨r2, hr2, hnt, hpos, hneg⟩ :=
            computeSearchResult_tag_bonus r.note query r h3
          refine ⟨h1, h2, ?_, ?_⟩
          · intro ht
            obtain ⟨hmf, hsc⟩ := computeSearchResult_tags r.note query r h3 ht
            obtain ⟨hb, hf⟩ := hpos ht
            exact ⟨hmf, hsc, r2, hr2, hnt, hb, hf⟩
          · intro ht
            obtain ⟨hb, hf⟩ := hneg ht
            rw [hf]
            exact ⟨hnt, r2, hr2, hb, rfl⟩
        · intro hlim _ _ n hn hm
          obtain ⟨r, hr1, hr2⟩ := collectResults_complete query notes cand hc n hn hm
          refine ⟨r, ?_, hr2⟩
          rw [← hs]
          simp only [hlim]
          exact (sortByScoreDesc_perm cand).mem_iff.mpr hr1

/-- Claim C2 counterexample: a note whose tags contain the query but whose
title and content do not is excluded from the results, while the claim
asserts it appears with a tags match. -/
theorem claim_C2_counterexample :
    tagOnlyNote.tags.any
        (fun t => includesSub (lowerStr t) (lowerStr "javascript".toList)) = true ∧
      searchNotes "javascript".toList [tagOnlyNote] {} = some [] := by decide

/-- Claim C2 witness: the amended theorem applied to a concrete search. -/
theorem claim_C2_witness :
    jsNote ∈ [jsNote] ∧ jsNote.matchesQuery "javascript".toList = true ∧
      (jsNote.tags.any
          (fun t => includesSub (lowerStr t) (lowerStr "javascript".toList)) = true →
        "tags".toList ∈ ["title".toList, "tags".toList] ∧ 3 ≤ 5 ∧
        ∃ r2, computeSearchResult { jsNote with tags := [] } "javascript".toList =
            some r2 ∧
          "tags".toList ∉ r2.matchedFields ∧
          5 = r2.score + 3 ∧
          (["title".toList, "tags".toList] : List Str) =
            r2.matchedFields ++ ["tags".toList]) ∧
      (jsNote.tags.any
          (fun t => includesSub (lowerStr t) (lowerStr "javascript".toList)) = false →
        "tags".toList ∉ (["title".toList, "tags".toList] : List Str) ∧
        ∃ r2, computeSearchResult { jsNote with tags := [] } "javascript".toList =
            some r2 ∧
          5 = r2.score ∧
          (["title".toList, "tags".toList] : List Str) = r2.matchedFields) :=
  (claim_C2_tag_bonus_gate "javascript".toList [jsNote] {}
      [{ note := jsNote, score := 5, matchedFields := ["title".toList, "tags".toList] }]
      (by decide)).1
    { note := jsNote, score := 5, matchedFields := ["title".toList, "tags".toList] }
    (by decide)

/-- Claim C9 (amended): for a non-blank query, results are the stable sort of
the candidates by score descending (sorted; equal-score candidates keep input
order); a positive limit truncates the sorted list to min(limit, matches)
elements after sorting, while limit zero (falsy) and negative limits leave
the list untruncated. -/
theorem claim_C9_sort_truncate (query : Str) (notes : List Note) (l : Int)
    (res cand : List SearchResult)
    (hq1 : query ≠ []) (hq2 : trimStr query ≠ [])
    (hc : collectResults query notes = some cand)
    (hs : searchNotes query notes { limit := some l } = some res) :
    (sortByScoreDesc cand).Pairwise (fun a b => b.score ≤ a.score) ∧
    (∀ s : Nat, (sortByScoreDesc cand).filter (fun x => x.score == s) =
      cand.filter (fun x => x.score == s)) ∧
    List.Perm (sortByScoreDesc cand) cand ∧
    res = (if 0 < l then (sortByScoreDesc cand).take l.toNat else sortByScoreDesc cand) ∧
    res.length = (if 0 < l then min l.toNat cand.length else cand.length) := by
  rw [searchNotes_nonblank query notes { limit := some l } hq1 hq2, hc] at hs
  simp only [Option.map_some'] at hs
  injection hs with hs
  have hres :
      res = (if l ≠ 0 ∧ l > 0 then (sortByScoreDesc cand).take l.toNat
             else sortByScoreDesc cand) := hs.symm
  have hiff : (l ≠ 0 ∧ l > 0) ↔ 0 < l := by omega
  have hlen : (sortByScoreDesc cand).length = cand.length :=
    (sortByScoreDesc_perm cand).length_eq
  refine ⟨sortByScoreDesc_pairwise cand, fun s => sortByScoreDesc_filter s cand,
    sortByScoreDesc_perm cand, ?_, ?_⟩
  · rw [hres]
    by_cases hpos : 0 < l
    · rw [if_pos (hiff.mpr hpos), if_pos hpos]
    · rw [if_neg (fun hx => hpos (hiff.mp hx)), if_neg hpos]
  · rw [hres]
    by_cases hpos : 0 < l
    · rw [if_pos (hiff.mpr hpos), if_pos hpos, List.length_take, hlen]
    · rw [if_neg (fun hx => hpos (hiff.mp hx)), if_neg hpos, hlen]

/-- Claim C9 counterexample: with limit zero the code skips truncation
(zero is falsy), returning one result where the claim demands
min(limit, matches) = 0 results. -/
theorem claim_C9_counterexample :
    (searchNotes "a".toList [aNote] { limit := some 0 }).map List.length = some 1 ∧
      min ((0 : Int)).toNat 1 = 0 := by decide

/-- Claim C9 witness: the amended theorem applied to a concrete search with a
positive limit. -/
theorem claim_C9_witness :
    "a".toList ≠ [] ∧ trimStr "a".toList ≠ [] ∧
      collectResults "a".toList [aNote] =
        some [{ note := aNote, score := 6, matchedFields := ["title".toList, "content".toList] }] ∧
      searchNotes "a".toList [aNote] { limit := some 1 } =
        some [{ note := aNote, score := 6, matchedFields := ["title".toList, "content".toList] }] ∧
      ([({ note := aNote, score := 6,
           matchedFields := ["title".toList, "content".toList] } : SearchResult)]).length =
        (if (0 : Int) < 1 then
          min (Int.toNat 1)
            ([({ note := aNote, score := 6,
                 matchedFields := ["title".toList, "content".toList] } : SearchResult)]).length
         else
          ([({ note := aNote, score := 6,
               matchedFields := ["title".toList, "content".toList] } : SearchResult)]).length) :=
  ⟨by decide, by decide, by decide, by decide, by
    have h := claim_C9_sort_truncate "a".toList [aNote] 1
      [{ note := aNote, score := 6, matchedFields := ["title".toList, "content".toList] }]
      [{ note := aNote, score := 6, matchedFields := ["title".toList, "content".toList] }]
      (by decide) (by decide) (by decide) (by decide)
    have h5 := h.2.2.2.2
    simp at h5
    simp [h5]⟩

/-- Claim C4 (code bug): the query is interpolated into a RegExp without
escaping.  A query consisting of an unmatched parenthesis makes the search
throw (modelled as none), and a dot query is counted as a wildcard: the note
titled a.b scores 6 for the query dot although the title contains the dot
character exactly once (an escaped literal count would score 2). -/
theorem claim_C4_unescaped_query :
    searchNotes "(".toList [parenNote] {} = none ∧
      (searchNotes ".".toList [dotNote] {}).map (fun rs => rs.map (fun r => r.score)) =
        some [6] ∧
      (dotNote.title.filter (fun c => c == '.')).length = 1 := by decide

/-- Claim C1 (confirmed): when the root directory cannot be listed, findAll
returns the typed vault-access error for the vault path and does not return
an empty note list. -/
theorem claim_C1_root_access_error (env : RepoEnv) (st : RepoState) :
    findAll env FsListing.fail st =
      (Result.err (DomainError.vaultAccess env.vaultPath), st) := rfl

theorem dedupKeepFirstF_subset [DecidableEq α] :
    ∀ (fuel : Nat) (l : List α) (y : α), y ∈ dedupKeepFirstF fuel l → y ∈ l := by
  intro fuel
  induction fuel with
  | zero => intro l y hy; exact absurd hy (List.not_mem_nil y)
  | succ fuel ih =>
    intro l y hy
    cases l with
    | nil => exact absurd hy (List.not_mem_nil y)
    | cons x xs =>
      simp only [dedupKeepFirstF] at hy
      rcases List.mem_cons.mp hy with hy | hy
      · exact hy ▸ List.mem_cons_self x xs
      · exact List.mem_cons_of_mem x (List.mem_of_mem_filter (ih _ y hy))

theorem dedupKeepFirstF_nodup [DecidableEq α] :
    ∀ (fuel : Nat) (l : List α), (dedupKeepFirstF fuel l).Nodup := by
  intro fuel
  induction fuel with
  | zero => intro l; exact List.nodup_nil
  | succ fuel ih =>
    intro l
    cases l with
    | nil => exact List.nodup_nil
    | cons x xs =>
      simp only [dedupKeepFirstF]
      refine List.nodup_cons.mpr ⟨?_, ih _⟩
      intro hx
      have hmem := dedupKeepFirstF_subset fuel _ x hx
      have := List.of_mem_filter hmem
      simp at this

theorem dedupKeepFirst_nodup [DecidableEq α] (l : List α) : (dedupKeepFirst l).Nodup :=
  dedupKeepFirstF_nodup l.length l

/-- Claim C6 (amended): the tags of a parsed note contain no two entries that
are equal as exact strings (case-sensitive deduplication); entries differing
only in letter case may both appear. -/
theorem claim_C6_tags_nodup (env : RepoEnv) (fullPath relPath : Str)
    (stat : FileStat) (content : FileReadResult) (note : Note)
    (h : loadNote env fullPath relPath stat content = Result.ok note) :
    note.tags.Nodup := by
  cases content with
  | enoent => simp [loadNote] at h
  | otherError => simp [loadNote] at h
  | ok raw =>
    cases hm : env.matterFn raw with
    | none => simp [loadNote, hm] at h
    | some p =>
      cases p with
      | mk fm noteContent =>
        simp only [loadNote, hm] at h
        injection h with h
        rw [← h]
        exact dedupKeepFirst_nodup _

/-- Claim C6 counterexample: a frontmatter tag Spanish and an inline tag
spanish survive deduplication together, so the tags list does contain a
case-only duplicate pair. -/
theorem claim_C6_counterexample :
    noteTagsOf (loadNote spanishEnv "/vault/a.md".toList "a.md".toList fixStat
        (FileReadResult.ok "irrelevant".toList)) =
      ["Spanish".toList, "spanish".toList] ∧
    lowerStr "Spanish".toList = lowerStr "spanish".toList := by decide

/-- Claim C6 witness: the amended theorem applied to a concrete note load. -/
theorem claim_C6_witness :
    (["Spanish".toList, "spanish".toList] : List Str).Nodup := by
  have h :=
    claim_C6_tags_nodup spanishEnv "/vault/a.md".toList "a.md".toList fixStat
      (FileReadResult.ok "irrelevant".toList)
      { path := "a.md".toList
        title := "Untitled".toList
        content := "#spanish hi".toList
        frontmatter := { tags := some (FmValue.list [FmAtom.str "Spanish".toList]) }
        tags := ["Spanish".toList, "spanish".toList]
        links := []
        createdAt := 5
        modifiedAt := 7 }
      (by decide)
  exact h

/-- Claim C5 (confirmed): a frontmatter date value that parses successfully
becomes the note's timestamp; the storage-layer stat timestamp is used only
when the frontmatter date is absent or unparseable. -/
theorem claim_C5_frontmatter_dates (env : RepoEnv) (fullPath relPath : Str)
    (stat : FileStat) (raw : Str) (fm : Frontmatter) (content : Str) (note : Note)
    (hm : env.matterFn raw = some (fm, content))
    (hn : loadNote env fullPath relPath stat (FileReadResult.ok raw) = Result.ok note) :
    (∀ d, parseFmDate env.jsDate fm.created = some d → note.createdAt = d) ∧
    (parseFmDate env.jsDate fm.created = none → note.createdAt = stat.createdAt) ∧
    (∀ d, parseFmDate env.jsDate fm.updated = some d → note.modifiedAt = d) ∧
    (parseFmDate env.jsDate fm.updated = none → note.modifiedAt = stat.modifiedAt) := by
  simp only [loadNote, hm] at hn
  injection hn with hn
  rw [← hn]
  simp only [normalizeFrontmatter]
  refine ⟨?_, ?_, ?_, ?_⟩
  · intro d hd; simp [hd]
  · intro hd; simp [hd]
  · intro d hd; simp [hd]
  · intro hd; simp [hd]

/-- Claim C5 witness: the theorem applied to a concrete load whose
frontmatter carries a created date. -/
theorem claim_C5_witness :
    dateEnv.matterFn "raw".toList =
        some ({ created := some (FmValue.date 42) }, "x".toList) ∧
      (∀ d, parseFmDate dateEnv.jsDate (some (FmValue.date 42)) = some d →
        (42 : Int) = d) := by
  constructor
  · decide
  · intro d hd
    have h :=
      claim_C5_frontmatter_dates dateEnv "/vault/n.md".toList "n.md".toList fixStat
        "raw".toList { created := some (FmValue.date 42) } "x".toList
        { path := "n.md".toList
          title := "Untitled".toList
          content := "x".toList
          frontmatter := { created := some (FmValue.date 42) }
          tags := []
          links := []
          createdAt := 42
          modifiedAt := 7 }
        (by decide) (by decide)
    exact h.1 d hd

/-- Claim C10 (confirmed): every query operation other than findAll scans the
storage exactly when the in-memory snapshot is empty.  With a non-empty
snapshot the result is independent of the storage tree and the snapshot is
unchanged; with an empty snapshot (including one left by a scan of an empty
vault) the operation adopts findAll's post-state and propagates findAll's
error. -/
theorem claim_C10_rescan_policy :
    (∀ (env : RepoEnv) (r1 r2 : FsListing) (st : RepoState) (p : Str),
        st.notesCache ≠ [] →
        findByPath env r1 st p = findByPath env r2 st p ∧
          (findByPath env r1 st p).2 = st) ∧
    (∀ (env : RepoEnv) (root : FsListing) (p : Str),
        (findByPath env root { notesCache := [] } p).2 =
          (findAll env root { notesCache := [] }).2 ∧
        (∀ e, (findAll env root { notesCache := [] }).1 = Result.err e →
          (findByPath env root { notesCache := [] } p).1 = Result.err e)) ∧
    (∀ (env : RepoEnv) (r1 r2 : FsListing) (st : RepoState) (f : Str),
        st.notesCache ≠ [] →
        findByFolder env r1 st f = findByFolder env r2 st f ∧
          (findByFolder env r1 st f).2 = st) ∧
    (∀ (env : RepoEnv) (root : FsListing) (f : Str),
        (findByFolder env root { notesCache := [] } f).2 =
          (findAll env root { notesCache := [] }).2 ∧
        (∀ e, (findAll env root { notesCache := [] }).1 = Result.err e →
          (findByFolder env root { notesCache := [] } f).1 = Result.err e)) ∧
    (∀ (env : RepoEnv) (r1 r2 : FsListing) (st : RepoState),
        st.notesCache ≠ [] →
        getAllTags env r1 st = getAllTags env r2 st ∧ (getAllTags env r1 st).2 = st) ∧
    (∀ (env : RepoEnv) (root : FsListing),
        (getAllTags env root { notesCache := [] }).2 =
          (findAll env root { notesCache := [] }).2 ∧
        (∀ e, (findAll env root { notesCache := [] }).1 = Result.err e →
          (getAllTags env root { notesCache := [] }).1 = Result.err e)) ∧
    (∀ (env : RepoEnv) (r1 r2 : FsListing) (st : RepoState) (lim : Int),
        st.notesCache ≠ [] →
        getRecentlyModified env r1 st lim = getRecentlyModified env r2 st lim ∧
          (getRecentlyModified env r1 st lim).2 = st) ∧
    (∀ (env : RepoEnv) (root : FsListing) (lim : Int),
        (getRecentlyModified env root { notesCache := [] } lim).2 =
          (findAll env root { notesCache := [] }).2 ∧
        (∀ e, (findAll env root { notesCache := [] }).1 = Result.err e →
          (getRecentlyModified env root { notesCache := [] } lim).1 = Result.err e)) := by
  have hlen : ∀ (st : RepoState), st.notesCache ≠ [] → ¬ st.notesCache.length = 0 := by
    intro st h hz
    exact h (List.length_eq_zero.mp hz)
  refine ⟨?_, ?_, ?_, ?_, ?_, ?_, ?_, ?_⟩
  · intro env r1 r2 st p hne
    unfold findByPath
    rw [if_neg (hlen st hne), if_neg (hlen st hne)]
    exact ⟨rfl, rfl⟩
  · intro env root p
    unfold findByPath findAll
    rw [if_pos (show ({ notesCache := ([] : List Note) } : RepoState).notesCache.length = 0
      from rfl)]
    cases hl : loadListing env root env.vaultPath [] with
    | ok notes => exact ⟨rfl, by intro e he; simp at he⟩
    | err e0 => exact ⟨rfl, by intro e he; simp at he; rw [he]⟩
  · intro env r1 r2 st f hne
    unfold findByFolder
    rw [if_neg (hlen st hne), if_neg (hlen st hne)]
    exact ⟨rfl, rfl⟩
  · intro env root f
    unfold findByFolder findAll
    rw [if_pos (show ({ notesCache := ([] : List Note) } : RepoState).notesCache.length = 0
      from rfl)]
    cases hl : loadListing env root env.vaultPath [] with
    | ok notes => exact ⟨rfl, by intro e he; simp at he⟩
    | err e0 => exact ⟨rfl, by intro e he; simp at he; rw [he]⟩
  · intro env r1 r2 st hne
    unfold getAllTags
    rw [if_neg (hlen st hne), if_neg (hlen st hne)]
    exact ⟨rfl, rfl⟩
  · intro env root
    unfold getAllTags findAll
    rw [if_pos (show ({ notesCache := ([] : List Note) } : RepoState).notesCache.length = 0
      from rfl)]
    cases hl : loadListing env root env.vaultPath [] with
    | ok notes => exact ⟨rfl, by intro e he; simp at he⟩
    | err e0 => exact ⟨rfl, by intro e he; simp at he; rw [he]⟩
  · intro env r1 r2 st lim hne
    unfold getRecentlyModified
    rw [if_neg (hlen st hne), if_neg (hlen st hne)]
    exact ⟨rfl, rfl⟩
  · intro env root lim
    unfold getRecentlyModified findAll
    rw [if_pos (show ({ notesCache := ([] : List Note) } : RepoState).notesCache.length = 0
      from rfl)]
    cases hl : loadListing env root env.vaultPath [] with
    | ok notes => exact ⟨rfl, by intro e he; simp at he⟩
    | err e0 => exact ⟨rfl, by intro e he; simp at he; rw [he]⟩

/-- Claim C10 witness: the policy applied to concrete states: a non-empty
snapshot ignores the storage tree, an empty snapshot adopts the scan error. -/
theorem claim_C10_witness :
    (findByPath spanishEnv (FsListing.ok []) { notesCache := [aNote] } "a.md".toList =
        findByPath spanishEnv FsListing.fail { notesCache := [aNote] } "a.md".toList) ∧
      (findByPath spanishEnv FsListing.fail { notesCache := [] } "a.md".toList).1 =
        Result.err (DomainError.vaultAccess "/vault".toList) :=
  ⟨((claim_C10_rescan_policy.1 spanishEnv (FsListing.ok []) FsListing.fail
      { notesCache := [aNote] } "a.md".toList (by decide)).1),
   ((claim_C10_rescan_policy.2.1 spanishEnv FsListing.fail "a.md".toList).2
      (DomainError.vaultAccess "/vault".toList) (by decide))⟩

theorem splitLinesAux_budget :
    ∀ (s acc : Str), lineBudget (splitLinesAux s acc) = 1 + acc.length + s.length := by
  intro s
  induction s with
  | nil => intro acc; simp [splitLinesAux, lineBudget]
  | cons c cs ih =>
    intro acc
    simp only [splitLinesAux]
    by_cases hc : c = '\n'
    · rw [if_pos hc]
      simp only [lineBudget, ih, List.length_reverse, List.length_nil, List.length_cons]
      omega
    · rw [if_neg hc, ih]
      simp only [List.length_cons]
      omega

theorem splitLines_budget (content : Str) :
    lineBudget (splitLines content) = 1 + content.length := by
  unfold splitLines
  rw [splitLinesAux_budget]
  rfl

theorem headerMatch_bound (line : Str) (lvl : Nat) (h : Str)
    (hm : headerMatch line = some (lvl, h)) :
    h ≠ [] ∧ lvl + 1 + h.length ≤ line.length := by
  have hA : (line.takeWhile (fun c => c = '#')).length ≤ line.length :=
    (List.takeWhile_sublist _).length_le
  have hlenR : (line.drop (line.takeWhile (fun c => c = '#')).length).length =
      line.length - (line.takeWhile (fun c => c = '#')).length := List.length_drop ..
  simp only [headerMatch] at hm
  split at hm
  case isTrue h16 =>
    cases hR : line.drop (line.takeWhile (fun c => c = '#')).length with
    | nil => rw [hR] at hm; exact absurd hm (by simp)
    | cons c R =>
      rw [hR] at hm
      simp only at hm
      split at hm
      case isTrue hws =>
        split at hm
        case isTrue hbody =>
          injection hm with hm
          injection hm with hm1 hm2
          subst hm1
          subst hm2
          refine ⟨hbody, ?_⟩
          have hdw : (c :: R).dropWhile Char.isWhitespace = R.dropWhile Char.isWhitespace := by
            rw [List.dropWhile_cons, if_pos hws]
          rw [hdw]
          have hble : (R.dropWhile Char.isWhitespace).length ≤ R.length :=
            (List.dropWhile_sublist _).length_le
          have hcR : (c :: R).length = line.length - (line.takeWhile (fun c => c = '#')).length := by
            rw [← hR, hlenR]
          simp only [List.length_cons] at hcR
          omega
        case isFalse hbody =>
          split at hm
          case isTrue hge2 =>
            injection hm with hm
            injection hm with hm1 hm2
            subst hm1
            subst hm2
            have hcR : (c :: R).length = line.length - (line.takeWhile (fun c => c = '#')).length := by
              rw [← hR, hlenR]
            simp only [List.length_cons] at hcR
            constructor
            · have : ((c :: R).drop ((c :: R).length - 1)).length = 1 := by
                rw [List.length_drop]
                simp only [List.length_cons]
                omega
              intro hnil
              rw [hnil] at this
              simp at this
            · have : ((c :: R).drop ((c :: R).length - 1)).length = 1 := by
                rw [List.length_drop]
                simp only [List.length_cons]
                omega
              rw [this]
              simp only [List.length_cons] at hge2
              omega
          case isFalse => exact absurd hm (by simp)
      case isFalse => exact absurd hm (by simp)
  case isFalse => exact absurd hm (by simp)

theorem sectionFullContent_header (sec : MdSection) (hh : sec.header ≠ []) :
    (sectionFullContent sec).length =
      sec.level + 1 + sec.header.length + 1 + sec.content.length := by
  simp only [sectionFullContent, if_pos hh]
  simp [List.length_append, List.length_replicate]
  omega

theorem sectionFullContent_headerless (sec : MdSection) (hh : sec.header = []) :
    (sectionFullContent sec).length = sec.content.length := by
  simp [sectionFullContent, hh]

theorem mdSecAppendLine_budget (sec : MdSection) (line : Str) (i : Nat) :
    (sectionFullContent (mdSecAppendLine sec line i)).length ≤
      (sectionFullContent sec).length + 1 + line.length := by
  have hcontent : (mdSecAppendLine sec line i).content.length ≤
      sec.content.length + 1 + line.length := by
    simp only [mdSecAppendLine]
    by_cases hc : sec.content ≠ []
    · rw [if_pos hc]; simp; omega
    · rw [if_neg hc]; simp
  have hheader : (mdSecAppendLine sec line i).header = sec.header := rfl
  have hlevel : (mdSecAppendLine sec line i).level = sec.level := rfl
  by_cases hh : sec.header ≠ []
  · rw [sectionFullContent_header _ (hheader ▸ hh), sectionFullContent_header _ hh,
      hheader, hlevel]
    omega
  · push_neg at hh
    rw [sectionFullContent_headerless _ (hheader ▸ hh), sectionFullContent_headerless _ hh]
    omega

theorem splitByHeadersAux_budget (B : Nat) :
    ∀ (lines : List Str) (i : Nat) (sections : List MdSection) (cur : Option MdSection),
      (∀ sec ∈ sections, (sectionFullContent sec).length ≤ B) →
      (match cur with
       | none => sections = [] ∧ lineBudget lines ≤ B
       | some c => (sectionFullContent c).length + lineBudget lines ≤ B) →
      ∀ sec ∈ splitByHeadersAux lines i sections cur,
        (sectionFullContent sec).length ≤ B := by
  intro lines
  induction lines with
  | nil =>
    intro i sections cur hsec hcur sec hmem
    cases cur with
    | none =>
      simp only [splitByHeadersAux] at hmem
      exact hsec sec hmem
    | some c =>
      simp only [splitByHeadersAux] at hmem
      rcases List.mem_append.mp hmem with hmem | hmem
      · exact hsec sec hmem
      · have : sec = c := by simpa using hmem
        subst this
        simp only [lineBudget] at hcur
        omega
  | cons l rest ih =>
    intro i sections cur hsec hcur sec hmem
    simp only [splitByHeadersAux] at hmem
    cases hh : headerMatch l with
    | some p =>
      obtain ⟨lvl, hdr⟩ := p
      rw [hh] at hmem
      obtain ⟨hdr_ne, hdr_le⟩ := headerMatch_bound l lvl hdr hh
      have hnewlen :
          (sectionFullContent
            { header := hdr, level := lvl, content := [], startLine := i, endLine := i }).length =
            lvl + 1 + hdr.length + 1 := by
        rw [sectionFullContent_header _ hdr_ne]
        simp
      cases cur with
      | none =>
        obtain ⟨hnil, hbud⟩ := hcur
        simp only [lineBudget] at hbud
        refine ih (i + 1) sections _ hsec ?_ sec hmem
        simp only [hnewlen]
        omega
      | some c =>
        simp only [lineBudget] at hcur
        refine ih (i + 1) (sections ++ [c]) _ ?_ ?_ sec hmem
        · intro s hs
          rcases List.mem_append.mp hs with hs | hs
          · exact hsec s hs
          · have : s = c := by simpa using hs
            subst this
            omega
        · simp only [hnewlen]
          omega
    | none =>
      rw [hh] at hmem
      cases cur with
      | some c =>
        simp only [lineBudget] at hcur
        refine ih (i + 1) sections _ hsec ?_ sec hmem
        have := mdSecAppendLine_budget c l i
        omega
      | none =>
        obtain ⟨hnil, hbud⟩ := hcur
        subst hnil
        simp only [List.getLast?_nil] at hmem
        simp only [lineBudget] at hbud
        refine ih (i + 1) [] _ (by intro s hs; exact absurd hs (List.not_mem_nil s)) ?_ sec hmem
        have hnew :
            (sectionFullContent
              { header := [], level := 0, content := l, startLine := i, endLine := i }).length =
              l.length := by
          rw [sectionFullContent_headerless _ rfl]
        simp only [hnew]
        omega

theorem splitByHeaders_budget (content : Str) :
    ∀ sec ∈ splitByHeaders content,
      (sectionFullContent sec).length ≤ 1 + content.length := by
  intro sec hmem
  refine splitByHeadersAux_budget (1 + content.length) (splitLines content) 0 [] none
    (by intro s hs; exact absurd hs (List.not_mem_nil s)) ?_ sec hmem
  exact ⟨rfl, by rw [splitLines_budget]⟩

theorem splitByHeadersAux_ne_nil :
    ∀ (lines : List Str) (i : Nat) (sections : List MdSection) (cur : Option MdSection),
      (sections ≠ [] ∨ cur ≠ none) → splitByHeadersAux lines i sections cur ≠ [] := by
  intro lines
  induction lines with
  | nil =>
    intro i sections cur hdisj
    cases cur with
    | none =>
      simp only [splitByHeadersAux]
      rcases hdisj with hdisj | hdisj
      · exact hdisj
      · exact absurd rfl hdisj
    | some c => simp [splitByHeadersAux]
  | cons l rest ih =>
    intro i sections cur hdisj
    cases hh : headerMatch l with
    | some p =>
      obtain ⟨lvl, hdr⟩ := p
      cases cur with
      | none =>
        simp only [splitByHeadersAux, hh]
        exact ih (i + 1) sections _ (Or.inr (by simp))
      | some c =>
        simp only [splitByHeadersAux, hh]
        exact ih (i + 1) (sections ++ [c]) _ (Or.inr (by simp))
    | none =>
      cases cur with
      | some c =>
        simp only [splitByHeadersAux, hh]
        exact ih (i + 1) sections _ (Or.inr (by simp))
      | none =>
        rcases hdisj with hdisj | hdisj
        · cases hlast : sections.getLast? with
          | none =>
            exact absurd (List.getLast?_eq_none_iff.mp hlast) hdisj
          | some lastSec =>
            simp only [splitByHeadersAux, hh, hlast]
            by_cases hhd : lastSec.header ≠ []
            · rw [if_pos hhd]
              exact ih (i + 1) sections _ (Or.inr (by simp))
            · rw [if_neg hhd]
              exact ih (i + 1) _ none (Or.inl (by simp))
        · exact absurd rfl hdisj

theorem splitLinesAux_ne_nil : ∀ (s acc : Str), splitLinesAux s acc ≠ [] := by
  intro s
  induction s with
  | nil => intro acc; simp [splitLinesAux]
  | cons c cs ih =>
    intro acc
    simp only [splitLinesAux]
    by_cases hc : c = '\n'
    · rw [if_pos hc]; simp
    · rw [if_neg hc]; exact ih (c :: acc)

theorem splitByHeaders_ne_nil (content : Str) : splitByHeaders content ≠ [] := by
  unfold splitByHeaders
  cases hsl : splitLines content with
  | nil => exact absurd hsl (splitLinesAux_ne_nil content [])
  | cons l rest =>
    simp only [splitByHeadersAux]
    cases hh : headerMatch l with
    | some p =>
      obtain ⟨lvl, hdr⟩ := p
      exact splitByHeadersAux_ne_nil rest 1 [] _ (Or.inr (by simp))
    | none =>
      simp only [List.getLast?_nil]
      exact splitByHeadersAux_ne_nil rest 1 [] _ (Or.inr (by simp))

theorem chunkSection_fits (opts : ChunkOptions) (sec : MdSection) (noteId : Str)
    (hle : (sectionFullContent sec).length ≤ opts.maxChunkSize) :
    chunkSection opts sec noteId =
      [{ content := sectionFullContent sec,
         metadata :=
           { noteId := noteId, chunkIndex := 0, startLine := sec.startLine,
             endLine := sec.endLine,
             headerContext := if sec.header ≠ [] then some sec.header else none } }] := by
  unfold chunkSection
  rw [if_pos hle]

theorem flatMap_fits (opts : ChunkOptions) (noteId : Str) :
    ∀ (secs : List MdSection),
      (∀ sec ∈ secs, (sectionFullContent sec).length ≤ opts.maxChunkSize) →
      (secs.flatMap (fun sec => chunkSection opts sec noteId)).length = secs.length ∧
      ∀ c ∈ secs.flatMap (fun sec => chunkSection opts sec noteId),
        c.metadata.chunkIndex = 0 := by
  intro secs
  induction secs with
  | nil => intro _; simp
  | cons s ss ih =>
    intro hfit
    have hs := hfit s (List.mem_cons_self s ss)
    obtain ⟨ihlen, ihidx⟩ := ih (fun sec hsec => hfit sec (List.mem_cons_of_mem s hsec))
    rw [List.flatMap_cons, chunkSection_fits opts s noteId hs]
    constructor
    · simp [ihlen]
    · intro c hc
      rcases List.mem_append.mp hc with hc | hc
      · rw [List.mem_singleton] at hc
        subst hc
        rfl
      · exact ihidx c hc

/-- Claim C7 (amended): with header-respecting chunking, non-whitespace
content shorter than maxChunkSize yields exactly one chunk per markdown
section (at least one section always exists), every chunk having
chunkIndex 0; content with several headers therefore yields several chunks,
not one. -/
theorem claim_C7_one_chunk_per_section (opts : ChunkOptions) (content noteId : Str)
    (hrh : opts.respectHeaders = true) (ht : trimStr content ≠ [])
    (hlen : content.length < opts.maxChunkSize) :
    (chunkDoc opts content noteId).length = (splitByHeaders content).length ∧
    (splitByHeaders content).length ≥ 1 ∧
    ∀ c ∈ chunkDoc opts content noteId, c.metadata.chunkIndex = 0 := by
  have hc0 : content ≠ [] := by
    intro h
    exact ht (by rw [h]; rfl)
  have htl : ¬ (trimStr content).length = 0 := by
    intro h
    exact ht (List.length_eq_zero.mp h)
  have hcond : ¬ (content = [] ∨ (trimStr content).length = 0) := by
    intro hor
    rcases hor with hor | hor
    · exact hc0 hor
    · exact htl hor
  have hfit : ∀ sec ∈ splitByHeaders content,
      (sectionFullContent sec).length ≤ opts.maxChunkSize := by
    intro sec hs
    have := splitByHeaders_budget content sec hs
    omega
  obtain ⟨hflen, hfidx⟩ := flatMap_fits opts noteId (splitByHeaders content) hfit
  have hne : (splitByHeaders content).length ≥ 1 := by
    have := splitByHeaders_ne_nil content
    cases hsp : splitByHeaders content with
    | nil => exact absurd hsp this
    | cons a l => simp
  unfold chunkDoc
  rw [if_neg hcond, hrh, if_pos rfl]
  exact ⟨hflen, hne, hfidx⟩

/-- Claim C7 counterexample: content with two headers, far shorter than
maxChunkSize, yields two chunks, not exactly one. -/
theorem claim_C7_counterexample :
    (chunkDoc specChunkOpts "# A\nx\n# B\ny".toList "n".toList).length = 2 ∧
      "# A\nx\n# B\ny".toList.length < specChunkOpts.maxChunkSize := by decide

/-- Claim C7 witness: the amended theorem applied to a concrete single-section
content. -/
theorem claim_C7_witness :
    (chunkDoc specChunkOpts "hello".toList "n".toList).length =
        (splitByHeaders "hello".toList).length ∧
      (splitByHeaders "hello".toList).length ≥ 1 ∧
      ∀ c ∈ chunkDoc specChunkOpts "hello".toList "n".toList,
        c.metadata.chunkIndex = 0 :=
  claim_C7_one_chunk_per_section specChunkOpts "hello".toList "n".toList
    (by decide) (by decide) (by decide)

theorem stripOverlaps_append (opts : ChunkOptions) :
    ∀ (rest : List Str) (prev c : Str),
      stripOverlaps opts prev (rest ++ [c]) =
        stripOverlaps opts prev rest ++
          c.drop (getOverlap opts (rest.getLastD prev)).length := by
  intro rest
  induction rest with
  | nil =>
    intro prev c
    simp [stripOverlaps, List.getLastD]
  | cons r rs ih =>
    intro prev c
    simp only [List.cons_append, stripOverlaps, List.getLastD_cons, List.append_assoc,
      List.append_eq]
    rw [ih r c]

theorem reconstructFromChunks_append (opts : ChunkOptions) (c0 : Str)
    (rest : List Str) (c : Str) :
    reconstructFromChunks opts ((c0 :: rest) ++ [c]) =
      reconstructFromChunks opts (c0 :: rest) ++
        c.drop (getOverlap opts ((c0 :: rest).getLastD [])).length := by
  simp only [List.cons_append, reconstructFromChunks, List.getLastD_cons]
  rw [stripOverlaps_append opts rest c0 c, List.append_assoc]

theorem splitLoop_recon (opts : ChunkOptions) :
    ∀ (sents : List Str) (chunks : List Str) (cur ov : Str),
      (chunks = [] → ov = []) →
      (chunks ≠ [] → ov = getOverlap opts (chunks.getLastD []) ∧
        cur.take ov.length = ov) →
      reconstructFromChunks opts
        (match splitLoop opts sents chunks cur ov with
         | (chunks1, cur1, ov1) =>
           if cur1.length > 0 ∧ cur1 ≠ ov1 then chunks1 ++ [cur1] else chunks1) =
        (if chunks = [] then cur
         else reconstructFromChunks opts chunks ++ cur.drop ov.length) ++
          sents.flatten := by
  intro sents
  induction sents with
  | nil =>
    intro chunks cur ov h1 h2
    simp only [splitLoop, List.flatten_nil, List.append_nil]
    by_cases hch : chunks = []
    · subst hch
      have hov := h1 rfl
      subst hov
      simp only [if_pos rfl]
      by_cases hcur : cur = []
      · subst hcur
        simp [reconstructFromChunks]
      · have hg : cur.length > 0 ∧ cur ≠ ([] : Str) :=
          ⟨List.length_pos.mpr hcur, hcur⟩
        rw [if_pos hg]
        simp [reconstructFromChunks, stripOverlaps]
    · obtain ⟨hov, htake⟩ := h2 hch
      rw [if_neg hch]
      have hsplit : cur = ov ++ cur.drop ov.length := by
        conv_lhs => rw [← List.take_append_drop ov.length cur]
        rw [htake]
      by_cases hdrop : cur.drop ov.length = []
      · have hceq : cur = ov := by rw [hsplit, hdrop, List.append_nil]
        have hg : ¬ (cur.length > 0 ∧ cur ≠ ov) := by
          intro hg
          exact hg.2 hceq
        rw [if_neg hg, hdrop, List.append_nil]
      · have hcne : cur ≠ ov := by
          intro hceq
          rw [hceq, List.drop_length] at hdrop
          exact hdrop rfl
        have hpos : cur.length > 0 := by
          cases hc : cur with
          | nil => rw [hc] at hdrop; simp at hdrop
          | cons a l => simp
        rw [if_pos ⟨hpos, hcne⟩]
        cases hch2 : chunks with
        | nil => exact absurd hch2 hch
        | cons c0 rc =>
          rw [reconstructFromChunks_append opts c0 rc cur, ← hch2, ← hov]
  | cons s rest ih =>
    intro chunks cur ov h1 h2
    simp only [splitLoop]
    have hlenov : chunks ≠ [] → ov.length ≤ cur.length := by
      intro hch
      obtain ⟨hov, htake⟩ := h2 hch
      have : (cur.take ov.length).length = ov.length := by rw [htake]
      rw [List.length_take] at this
      omega
    by_cases h1c : cur.length + s.length ≤ opts.maxChunkSize
    · rw [if_pos h1c]
      have hmain := ih chunks (cur ++ s) ov h1 ?_
      · rw [hmain]
        by_cases hch : chunks = []
        · rw [if_pos hch, if_pos hch]
          simp [List.append_assoc]
        · rw [if_neg hch, if_neg hch]
          rw [List.drop_append_of_le_length (hlenov hch)]
          simp [List.append_assoc]
      · intro hch
        obtain ⟨hov, htake⟩ := h2 hch
        exact ⟨hov, by rw [List.take_append_of_le_length (hlenov hch), htake]⟩
    · rw [if_neg h1c]
      by_cases h2c : cur.length ≥ opts.minChunkSize
      · rw [if_pos h2c]
        have hmain := ih (chunks ++ [cur]) (getOverlap opts cur ++ s) (getOverlap opts cur)
          (by intro hx; simp at hx) ?_
        · rw [hmain]
          rw [if_neg (by simp : ¬ (chunks ++ [cur] = []))]
          rw [List.drop_left]
          by_cases hch : chunks = []
          · subst hch
            rw [if_pos rfl]
            simp [reconstructFromChunks, stripOverlaps, List.append_assoc]
          · rw [if_neg hch]
            cases hch2 : chunks with
            | nil => exact absurd hch2 hch
            | cons c0 rc =>
              rw [reconstructFromChunks_append opts c0 rc cur, ← hch2]
              obtain ⟨hov, _⟩ := h2 hch
              rw [← hov]
              simp [List.append_assoc]
        · intro _
          constructor
          · simp
          · exact List.take_left _ _
      · rw [if_neg h2c]
        have hmain := ih chunks (cur ++ s) ov h1 ?_
        · rw [hmain]
          by_cases hch : chunks = []
          · rw [if_pos hch, if_pos hch]
            simp [List.append_assoc]
          · rw [if_neg hch, if_neg hch]
            rw [List.drop_append_of_le_length (hlenov hch)]
            simp [List.append_assoc]
        · intro hch
          obtain ⟨hov, htake⟩ := h2 hch
          exact ⟨hov, by rw [List.take_append_of_le_length (hlenov hch), htake]⟩

theorem splitLargeSection_recon (opts : ChunkOptions) (content : Str) :
    reconstructFromChunks opts (splitLargeSection opts content) =
      (splitIntoSentences content).flatten := by
  have h := splitLoop_recon opts (splitIntoSentences content) [] [] []
    (fun _ => rfl) (fun hne => absurd rfl hne)
  rw [if_pos rfl] at h
  simp only [List.nil_append] at h
  unfold splitLargeSection
  exact h

/-- Claim C3 (amended): for a section split into several chunks, the chunks
carry sequential chunkIndex values, and concatenating them in that order
with each chunk's leading overlap (as computed from its predecessor)
stripped reproduces the concatenation of the section's trimmed sentence
units — not the section's original text, which additionally contains the
whitespace between sentences and any unterminated trailing fragment that
the sentence splitter discards. -/
theorem claim_C3_reconstruct (opts : ChunkOptions) (sec : MdSection) (noteId : Str)
    (hbig : (sectionFullContent sec).length > opts.maxChunkSize) :
    (chunkSection opts sec noteId).map (fun c => c.metadata.chunkIndex) =
      List.range (splitLargeSection opts (sectionFullContent sec)).length ∧
    reconstructFromChunks opts ((chunkSection opts sec noteId).map (fun c => c.content)) =
      (splitIntoSentences (sectionFullContent sec)).flatten := by
  have hnle : ¬ (sectionFullContent sec).length ≤ opts.maxChunkSize := by omega
  unfold chunkSection
  rw [if_neg hnle]
  constructor
  · rw [List.map_map]
    exact List.enum_map_fst _
  · rw [List.map_map]
    have h1 : ((splitLargeSection opts (sectionFullContent sec)).enum.map
        (fun p => p.2)) = splitLargeSection opts (sectionFullContent sec) :=
      List.enum_map_snd _
    show reconstructFromChunks opts
        ((splitLargeSection opts (sectionFullContent sec)).enum.map (fun p => p.2)) = _
    rw [h1]
    exact splitLargeSection_recon opts (sectionFullContent sec)

/-- Claim C3 counterexample: a concrete section split into four chunks whose
overlaps are genuine shared suffix/prefix context, yet stripping each leading
overlap and concatenating yields a text that differs from the original
section (the inter-sentence spaces are gone). -/
theorem claim_C3_counterexample :
    (chunkDoc smallChunkOpts "Aa bb. Cc dd. Ee ff. Gg hh.".toList "n".toList).map
        (fun c => c.content) =
      ["Aa bb.".toList, "bb.Cc dd.".toList, "Cc dd.Ee ff.".toList,
        "Ee ff.Gg hh.".toList] ∧
    (isSuffixStr (getOverlap smallChunkOpts "Aa bb.".toList) "Aa bb.".toList &&
      isPrefixStr (getOverlap smallChunkOpts "Aa bb.".toList) "bb.Cc dd.".toList &&
      isSuffixStr (getOverlap smallChunkOpts "bb.Cc dd.".toList) "bb.Cc dd.".toList &&
      isPrefixStr (getOverlap smallChunkOpts "bb.Cc dd.".toList) "Cc dd.Ee ff.".toList &&
      isSuffixStr (getOverlap smallChunkOpts "Cc dd.Ee ff.".toList) "Cc dd.Ee ff.".toList &&
      isPrefixStr (getOverlap smallChunkOpts "Cc dd.Ee ff.".toList)
        "Ee ff.Gg hh.".toList) = true ∧
    reconstructFromChunks smallChunkOpts
        ["Aa bb.".toList, "bb.Cc dd.".toList, "Cc dd.Ee ff.".toList,
          "Ee ff.Gg hh.".toList] ≠
      "Aa bb. Cc dd. Ee ff. Gg hh.".toList := by decide

/-- Claim C3 witness: the amended round-trip theorem applied to a concrete
oversized section. -/
theorem claim_C3_witness :
    (chunkSection smallChunkOpts c3Section "n".toList).map
        (fun c => c.metadata.chunkIndex) =
      List.range (splitLargeSection smallChunkOpts (sectionFullContent c3Section)).length ∧
    reconstructFromChunks smallChunkOpts
        ((chunkSection smallChunkOpts c3Section "n".toList).map (fun c => c.content)) =
      (splitIntoSentences (sectionFullContent c3Section)).flatten :=
  claim_C3_reconstruct smallChunkOpts c3Section "n".toList (by decide)

theorem alHas_iff_mem (l : List (Str × α)) (k : Str) :
    alHas l k = true ↔ k ∈ l.map Prod.fst := by
  unfold alHas
  rw [List.any_eq_true]
  constructor
  · rintro ⟨p, hp, he⟩
    exact List.mem_map.mpr ⟨p, hp, by simpa using he⟩
  · intro hk
    obtain ⟨p, hp, he⟩ := List.mem_map.mp hk
    exact ⟨p, hp, by simp [he]⟩

theorem alSet_map_fst_mem (l : List (Str × α)) (k : Str) (v : α)
    (hk : k ∈ l.map Prod.fst) : (alSet l k v).map Prod.fst = l.map Prod.fst := by
  induction l with
  | nil => simp at hk
  | cons p rest ih =>
    obtain ⟨k0, v0⟩ := p
    simp only [alSet]
    by_cases he : k0 == k
    · rw [if_pos he]
      simp
    · rw [if_neg he]
      simp only [List.map_cons]
      rw [ih]
      simp only [List.map_cons] at hk
      rcases List.mem_cons.mp hk with hk | hk
      · exact absurd (by simp [hk]) he
      · exact hk

theorem alSet_map_fst_new (l : List (Str × α)) (k : Str) (v : α)
    (hk : ¬ k ∈ l.map Prod.fst) :
    (alSet l k v).map Prod.fst = l.map Prod.fst ++ [k] := by
  induction l with
  | nil => simp [alSet]
  | cons p rest ih =>
    obtain ⟨k0, v0⟩ := p
    simp only [alSet]
    by_cases he : k0 = k
    · exact absurd (by rw [List.map_cons]; exact List.mem_cons.mpr (Or.inl he.symm)) hk
    · rw [if_neg (by simpa using he)]
      simp only [List.map_cons, List.cons_append]
      rw [ih (fun hx => hk (by rw [List.map_cons]; exact List.mem_cons.mpr (Or.inr hx)))]

theorem alSet_length (l : List (Str × α)) (k : Str) (v : α) :
    (alSet l k v).length = if k ∈ l.map Prod.fst then l.length else l.length + 1 := by
  induction l with
  | nil => simp [alSet]
  | cons p rest ih =>
    obtain ⟨k0, v0⟩ := p
    simp only [alSet]
    by_cases he : k0 = k
    · rw [if_pos (by exact beq_iff_eq.mpr he)]
      subst he
      have hmem : k0 ∈ ((k0, v0) :: rest).map Prod.fst := by
        rw [List.map_cons]
        exact List.mem_cons_self _ _
      rw [if_pos hmem]
      rfl
    · rw [if_neg (by simpa using he)]
      simp only [List.length_cons, ih, List.map_cons]
      by_cases hm : k ∈ rest.map Prod.fst
      · rw [if_pos hm, if_pos (List.mem_cons.mpr (Or.inr hm))]
      · rw [if_neg hm, if_neg ?_]
        intro hx
        rcases List.mem_cons.mp hx with hx | hx
        · exact he hx.symm
        · exact hm hx

theorem alSet_mem (l : List (Str × α)) (k : Str) (v : α)
    (hnd : (l.map Prod.fst).Nodup) (p : Str × α)
    (hp : p ∈ alSet l k v) : p = (k, v) ∨ (p ∈ l ∧ p.1 ≠ k) := by
  induction l with
  | nil => simp [alSet] at hp; exact Or.inl hp
  | cons q rest ih =>
    obtain ⟨k0, v0⟩ := q
    simp only [List.map_cons, List.nodup_cons] at hnd
    obtain ⟨hk0, hndrest⟩ := hnd
    simp only [alSet] at hp
    by_cases he : k0 == k
    · rw [if_pos he] at hp
      have hkk : k0 = k := by simpa using he
      rcases List.mem_cons.mp hp with hp | hp
      · exact Or.inl (by rw [hp, hkk])
      · refine Or.inr ⟨List.mem_cons_of_mem _ hp, ?_⟩
        intro hpk
        exact hk0 (by rw [hkk, ← hpk]; exact List.mem_map.mpr ⟨p, hp, rfl⟩)
    · rw [if_neg he] at hp
      rcases List.mem_cons.mp hp with hp | hp
      · subst hp
        exact Or.inr ⟨List.mem_cons_self _ _, by simpa using fun h => he (by simp [h])⟩
      · rcases ih hndrest hp with hp | hp
        · exact Or.inl hp
        · exact Or.inr ⟨List.mem_cons_of_mem _ hp.1, hp.2⟩

theorem alSet_of_not_mem (l : List (Str × α)) (k : Str) (v : α)
    (hk : ¬ k ∈ l.map Prod.fst) : alSet l k v = l ++ [(k, v)] := by
  induction l with
  | nil => simp [alSet]
  | cons p rest ih =>
    obtain ⟨k0, v0⟩ := p
    simp only [alSet]
    by_cases he : k0 = k
    · exact absurd (by rw [List.map_cons]; exact List.mem_cons.mpr (Or.inl he.symm)) hk
    · rw [if_neg (by simpa using he)]
      rw [ih (fun hx => hk (by rw [List.map_cons]; exact List.mem_cons.mpr (Or.inr hx)))]
      rfl

theorem alDelete_sublist (l : List (Str × α)) (k : Str) :
    List.Sublist (alDelete l k) l := by
  induction l with
  | nil => simp [alDelete]
  | cons p rest ih =>
    obtain ⟨k0, v0⟩ := p
    simp only [alDelete]
    by_cases he : k0 = k
    · rw [if_pos (by exact beq_iff_eq.mpr he)]
      exact List.sublist_cons_self _ _
    · rw [if_neg (by simpa using he)]
      exact List.Sublist.cons₂ _ ih

theorem alDelete_map_fst (l : List (Str × α)) (k : Str) :
    (alDelete l k).map Prod.fst = (l.map Prod.fst).erase k := by
  induction l with
  | nil => simp [alDelete]
  | cons p rest ih =>
    obtain ⟨k0, v0⟩ := p
    simp only [alDelete, List.map_cons, List.erase_cons]
    by_cases he : k0 = k
    · rw [if_pos (by exact beq_iff_eq.mpr he), if_pos (by exact beq_iff_eq.mpr he)]
    · rw [if_neg (by simpa using he), if_neg (by simpa using he)]
      rw [List.map_cons, ih]

theorem alDelete_length_mem (l : List (Str × α)) (k : Str)
    (hk : k ∈ l.map Prod.fst) : (alDelete l k).length + 1 = l.length := by
  induction l with
  | nil => simp at hk
  | cons p rest ih =>
    obtain ⟨k0, v0⟩ := p
    simp only [alDelete]
    rw [List.map_cons] at hk
    by_cases he : k0 = k
    · rw [if_pos (by exact beq_iff_eq.mpr he)]
      rfl
    · rw [if_neg (by simpa using he)]
      simp only [List.length_cons]
      have hkr : k ∈ rest.map Prod.fst := by
        rcases List.mem_cons.mp hk with hx | hx
        · exact absurd hx.symm he
        · exact hx
      rw [ih hkr]

theorem findLRU_spec :
    ∀ (l : List (Str × Nat)) (acc : Option (Str × Nat)),
      (match findLRU l acc with
       | none => l = [] ∧ acc = none
       | some m => ((m ∈ l ∨ acc = some m) ∧ (∀ p ∈ l, m.2 ≤ p.2) ∧
           (∀ b, acc = some b → m.2 ≤ b.2))) := by
  intro l
  induction l with
  | nil =>
    intro acc
    cases acc with
    | none => simp [findLRU]
    | some b =>
      refine ⟨Or.inr rfl, ?_, ?_⟩
      · intro p hp
        exact absurd hp (List.not_mem_nil p)
      · intro b2 hb
        injection hb with hb
        rw [← hb]
  | cons q rest ih =>
    intro acc
    obtain ⟨k, t⟩ := q
    cases acc with
    | none =>
      simp only [findLRU]
      have h := ih (some (k, t))
      cases hf : findLRU rest (some (k, t)) with
      | none => rw [hf] at h; exact absurd h.2 (by simp)
      | some m =>
        rw [hf] at h
        obtain ⟨hmem, hmin, hacc⟩ := h
        refine ⟨?_, ?_, by intro b hb; exact absurd hb (by simp)⟩
        · rcases hmem with hmem | hmem
          · exact Or.inl (List.mem_cons_of_mem _ hmem)
          · injection hmem with hmem
            exact Or.inl (hmem ▸ List.mem_cons_self _ _)
        · intro p hp
          rcases List.mem_cons.mp hp with hp | hp
          · subst hp
            exact hacc (k, t) rfl
          · exact hmin p hp
    | some b =>
      obtain ⟨bk, bt⟩ := b
      simp only [findLRU]
      by_cases hlt : t < bt
      · rw [if_pos hlt]
        have h := ih (some (k, t))
        cases hf : findLRU rest (some (k, t)) with
        | none => rw [hf] at h; exact absurd h.2 (by simp)
        | some m =>
          rw [hf] at h
          obtain ⟨hmem, hmin, hacc⟩ := h
          refine ⟨?_, ?_, ?_⟩
          · rcases hmem with hmem | hmem
            · exact Or.inl (List.mem_cons_of_mem _ hmem)
            · injection hmem with hmem
              exact Or.inl (hmem ▸ List.mem_cons_self _ _)
          · intro p hp
            rcases List.mem_cons.mp hp with hp | hp
            · subst hp
              exact hacc (k, t) rfl
            · exact hmin p hp
          · intro b2 hb2
            injection hb2 with hb2
            rw [← hb2]
            have := hacc (k, t) rfl
            simp only at this ⊢
            omega
      · rw [if_neg hlt]
        have h := ih (some (bk, bt))
        cases hf : findLRU rest (some (bk, bt)) with
        | none => rw [hf] at h; exact absurd h.2 (by simp)
        | some m =>
          rw [hf] at h
          obtain ⟨hmem, hmin, hacc⟩ := h
          refine ⟨?_, ?_, ?_⟩
          · rcases hmem with hmem | hmem
            · exact Or.inl (List.mem_cons_of_mem _ hmem)
            · exact Or.inr hmem
          · intro p hp
            rcases List.mem_cons.mp hp with hp | hp
            · subst hp
              have := hacc (bk, bt) rfl
              simp only at this ⊢
              omega
            · exact hmin p hp
          · exact hacc

theorem alSet_snd_mem (l : List (Str × α)) (k : Str) (v : α) (x : α)
    (hx : x ∈ (alSet l k v).map Prod.snd) : x = v ∨ x ∈ l.map Prod.snd := by
  induction l with
  | nil => simp [alSet] at hx; exact Or.inl hx
  | cons p rest ih =>
    obtain ⟨k0, v0⟩ := p
    simp only [alSet] at hx
    by_cases he : k0 == k
    · rw [if_pos he] at hx
      rw [List.map_cons] at hx
      rcases List.mem_cons.mp hx with hx | hx
      · exact Or.inl hx
      · exact Or.inr (by rw [List.map_cons]; exact List.mem_cons.mpr (Or.inr hx))
    · rw [if_neg he] at hx
      rw [List.map_cons] at hx
      rcases List.mem_cons.mp hx with hx | hx
      · exact Or.inr (by rw [List.map_cons]; exact List.mem_cons.mpr (Or.inl hx))
      · rcases ih hx with hx | hx
        · exact Or.inl hx
        · exact Or.inr (by rw [List.map_cons]; exact List.mem_cons.mpr (Or.inr hx))

theorem alSet_snd_nodup (l : List (Str × Nat)) (k : Str) (c : Nat)
    (hall : ∀ p ∈ l, p.2 < c) (hnd : (l.map Prod.snd).Nodup) :
    ((alSet l k c).map Prod.snd).Nodup := by
  induction l with
  | nil => simp [alSet]
  | cons p rest ih =>
    obtain ⟨k0, v0⟩ := p
    rw [List.map_cons, List.nodup_cons] at hnd
    obtain ⟨hv0, hndrest⟩ := hnd
    have hv0lt : v0 < c := hall (k0, v0) (List.mem_cons_self _ _)
    have hallrest : ∀ p ∈ rest, p.2 < c :=
      fun p hp => hall p (List.mem_cons_of_mem _ hp)
    simp only [alSet]
    by_cases he : k0 == k
    · rw [if_pos he, List.map_cons, List.nodup_cons]
      refine ⟨?_, hndrest⟩
      intro hc
      obtain ⟨p, hp, hpc⟩ := List.mem_map.mp hc
      have := hallrest p hp
      omega
    · rw [if_neg he, List.map_cons, List.nodup_cons]
      refine ⟨?_, ih hallrest hndrest⟩
      intro hv
      rcases alSet_snd_mem rest k c v0 hv with hv | hv
      · omega
      · exact hv0 hv

theorem alSet_snd_lt (l : List (Str × Nat)) (k : Str) (c : Nat)
    (hall : ∀ p ∈ l, p.2 < c) :
    ∀ p ∈ alSet l k c, p.2 < c + 1 := by
  intro p hp
  have hx : p.2 ∈ (alSet l k c).map Prod.snd := List.mem_map.mpr ⟨p, hp, rfl⟩
  rcases alSet_snd_mem l k c p.2 hx with hx | hx
  · omega
  · obtain ⟨q, hq, hqe⟩ := List.mem_map.mp hx
    have := hall q hq
    omega

theorem mkCache_inv (T : Type) (n : Int) : CacheInv (mkCache T n) := by
  refine ⟨rfl, List.nodup_nil, List.nodup_nil, ?_, ?_⟩
  · intro p hp
    exact absurd hp (List.not_mem_nil p)
  · intro _
    simp [mkCache]

theorem cacheGet_inv (s : CacheState T) (k : Str) (h : CacheInv s) :
    CacheInv (cacheGet s k).2 := by
  obtain ⟨hfst, hndf, hnds, hlt, hlen⟩ := h
  unfold cacheGet
  by_cases hh : alHas s.entries k
  · rw [if_pos hh]
    have hk : k ∈ s.accessOrder.map Prod.fst := hfst ▸ (alHas_iff_mem _ _).mp hh
    refine ⟨?_, ?_, ?_, ?_, hlen⟩
    · simp only
      rw [alSet_map_fst_mem _ _ _ hk, hfst]
    · simp only
      rw [alSet_map_fst_mem _ _ _ hk]
      exact hndf
    · exact alSet_snd_nodup _ _ _ hlt hnds
    · exact alSet_snd_lt _ _ _ hlt
  · rw [if_neg hh]
    exact ⟨hfst, hndf, hnds, hlt, hlen⟩

theorem evictLRU_spec (s : CacheState T) (h : CacheInv s)
    (hne : s.accessOrder ≠ []) :
    ∃ km tm, findLRU s.accessOrder none = some (km, tm) ∧
      (km, tm) ∈ s.accessOrder ∧
      (∀ p ∈ s.accessOrder, p.1 ≠ km → tm < p.2) ∧
      evictLRU s =
        { s with entries := alDelete s.entries km,
                 accessOrder := alDelete s.accessOrder km,
                 evictions := s.evictions + 1 } := by
  obtain ⟨hfst, hndf, hnds, hlt, hlen⟩ := h
  have hspec := findLRU_spec s.accessOrder none
  cases hf : findLRU s.accessOrder none with
  | none =>
    rw [hf] at hspec
    exact absurd hspec.1 hne
  | some m =>
    obtain ⟨km, tm⟩ := m
    rw [hf] at hspec
    obtain ⟨hmem, hmin, _⟩ := hspec
    have hmem2 : (km, tm) ∈ s.accessOrder := by
      rcases hmem with hmem | hmem
      · exact hmem
      · exact absurd hmem (by simp)
    refine ⟨km, tm, rfl, hmem2, ?_, ?_⟩
    · intro p hp hpk
      have hle := hmin p hp
      rcases Nat.lt_or_ge tm p.2 with hlt2 | hge
      · exact hlt2
      · have hpe : p.2 = tm := by omega
        have : p = (km, tm) := List.inj_on_of_nodup_map hnds hp hmem2 hpe
        exact absurd (by rw [this]) hpk
    · unfold evictLRU
      rw [hf]

theorem cacheSet_inv (s : CacheState T) (k : Str) (v : T) (h : CacheInv s) :
    CacheInv (cacheSet s k v) := by
  obtain ⟨hfst, hndf, hnds, hlt, hlen⟩ := h
  unfold cacheSet
  by_cases hz : s.maxSize = 0
  · rw [if_pos hz]
    exact ⟨hfst, hndf, hnds, hlt, hlen⟩
  · rw [if_neg hz]
    by_cases hh : alHas s.entries k
    · rw [if_pos hh]
      have hk : k ∈ s.entries.map Prod.fst := (alHas_iff_mem _ _).mp hh
      have hk2 : k ∈ s.accessOrder.map Prod.fst := hfst ▸ hk
      refine ⟨?_, ?_, ?_, ?_, ?_⟩
      · simp only
        rw [alSet_map_fst_mem _ _ _ hk, alSet_map_fst_mem _ _ _ hk2, hfst]
      · simp only
        rw [alSet_map_fst_mem _ _ _ hk2]
        exact hndf
      · exact alSet_snd_nodup _ _ _ hlt hnds
      · exact alSet_snd_lt _ _ _ hlt
      · intro hpos
        simp only
        rw [alSet_length, if_pos hk]
        exact hlen hpos
    · rw [if_neg hh]
      have hknot : ¬ k ∈ s.entries.map Prod.fst :=
        fun hx => hh ((alHas_iff_mem _ _).mpr hx)
      have hknot2 : ¬ k ∈ s.accessOrder.map Prod.fst := hfst ▸ hknot
      by_cases hcap : s.entries.length ≥ s.maxSize
      · rw [if_pos hcap]
        have hane : s.accessOrder ≠ [] := by
          intro hx
          have : s.entries.length = 0 := by
            have := congrArg List.length hfst
            rw [hx] at this
            simpa using this
          omega
        obtain ⟨km, tm, hf, hmem, hstrict, heq⟩ :=
          evictLRU_spec s ⟨hfst, hndf, hnds, hlt, hlen⟩ hane
        rw [heq]
        have hkmf : km ∈ s.accessOrder.map Prod.fst :=
          List.mem_map.mpr ⟨(km, tm), hmem, rfl⟩
        have hkmf2 : km ∈ s.entries.map Prod.fst := hfst ▸ hkmf
        have hfst2 : (alDelete s.entries km).map Prod.fst =
            (alDelete s.accessOrder km).map Prod.fst := by
          rw [alDelete_map_fst, alDelete_map_fst, hfst]
        have hknot3 : ¬ k ∈ (alDelete s.entries km).map Prod.fst := by
          rw [alDelete_map_fst]
          intro hx
          exact hknot (List.mem_of_mem_erase hx)
        have hknot4 : ¬ k ∈ (alDelete s.accessOrder km).map Prod.fst := by
          rw [alDelete_map_fst]
          intro hx
          exact hknot2 (List.mem_of_mem_erase hx)
        have hsub := alDelete_sublist s.accessOrder km
        refine ⟨?_, ?_, ?_, ?_, ?_⟩
        · simp only
          rw [alSet_map_fst_new _ _ _ hknot3, alSet_map_fst_new _ _ _ hknot4, hfst2]
        · simp only
          rw [alSet_map_fst_new _ _ _ hknot4, alDelete_map_fst]
          refine List.Nodup.append (hndf.erase km) (List.nodup_singleton k) ?_
          intro x hx
          intro hx2
          rw [List.mem_singleton] at hx2
          subst hx2
          exact hknot2 (List.mem_of_mem_erase hx)
        · refine alSet_snd_nodup _ _ _ ?_ ?_
          · intro p hp
            exact hlt p (hsub.mem hp)
          · exact ((hsub.map Prod.snd).nodup hnds)
        · intro p hp
          exact alSet_snd_lt _ _ _ (fun q hq => hlt q (hsub.mem hq)) p hp
        · intro hpos
          simp only
          rw [alSet_length, if_neg hknot3]
          have hdel := alDelete_length_mem s.entries km hkmf2
          have hle := hlen hpos
          omega
      · rw [if_neg hcap]
        refine ⟨?_, ?_, ?_, ?_, ?_⟩
        · simp only
          rw [alSet_map_fst_new _ _ _ hknot, alSet_map_fst_new _ _ _ hknot2, hfst]
        · simp only
          rw [alSet_map_fst_new _ _ _ hknot2]
          refine List.Nodup.append hndf (List.nodup_singleton k) ?_
          intro x hx hx2
          rw [List.mem_singleton] at hx2
          subst hx2
          exact hknot2 hx
        · exact alSet_snd_nodup _ _ _ hlt hnds
        · exact alSet_snd_lt _ _ _ hlt
        · intro hpos
          simp only
          rw [alSet_length, if_neg hknot]
          omega

theorem cacheSet_evicts_lru (s : CacheState T) (k : Str) (v : T)
    (hinv : CacheInv s) (hcap : 1 ≤ s.maxSize) (hfull : s.entries.length = s.maxSize)
    (hnew : alHas s.entries k = false) :
    ∃ km tm, findLRU s.accessOrder none = some (km, tm) ∧
      (km, tm) ∈ s.accessOrder ∧
      (∀ p ∈ s.accessOrder, p.1 ≠ km → tm < p.2) ∧
      (cacheSet s k v).entries.map Prod.fst =
        ((s.entries.map Prod.fst).erase km) ++ [k] := by
  obtain ⟨hfst, hndf, hnds, hlt, hlen⟩ := hinv
  have hane : s.accessOrder ≠ [] := by
    intro hx
    have : s.entries.length = 0 := by
      have := congrArg List.length hfst
      rw [hx] at this
      simpa using this
    omega
  obtain ⟨km, tm, hf, hmem, hstrict, heq⟩ :=
    evictLRU_spec s ⟨hfst, hndf, hnds, hlt, hlen⟩ hane
  refine ⟨km, tm, hf, hmem, hstrict, ?_⟩
  have hknot : ¬ k ∈ s.entries.map Prod.fst := by
    intro hx
    rw [(alHas_iff_mem s.entries k).mpr hx] at hnew
    exact absurd hnew (by simp)
  have hknot3 : ¬ k ∈ (alDelete s.entries km).map Prod.fst := by
    rw [alDelete_map_fst]
    intro hx
    exact hknot (List.mem_of_mem_erase hx)
  unfold cacheSet
  rw [if_neg (by omega : ¬ s.maxSize = 0), if_neg (by rw [hnew]; simp),
    if_pos (by omega : s.entries.length ≥ s.maxSize), heq]
  simp only
  rw [alSet_map_fst_new _ _ _ hknot3, alDelete_map_fst]

theorem ordFrom_map_fst : ∀ (ks : List Str) (a : Nat), (ordFrom a ks).map Prod.fst = ks := by
  intro ks
  induction ks with
  | nil => intro a; rfl
  | cons k rest ih =>
    intro a
    simp only [ordFrom, List.map_cons, ih]

theorem ordFrom_mem_bound :
    ∀ (ks : List Str) (a : Nat) (p : Str × Nat), p ∈ ordFrom a ks →
      a ≤ p.2 ∧ p.2 < a + ks.length := by
  intro ks
  induction ks with
  | nil => intro a p hp; exact absurd hp (List.not_mem_nil p)
  | cons k rest ih =>
    intro a p hp
    simp only [ordFrom] at hp
    rcases List.mem_cons.mp hp with hp | hp
    · subst hp
      simp only [List.length_cons]
      omega
    · have := ih (a + 1) p hp
      simp only [List.length_cons]
      omega

theorem ordFrom_snd_nodup : ∀ (ks : List Str) (a : Nat),
    ((ordFrom a ks).map Prod.snd).Nodup := by
  intro ks
  induction ks with
  | nil => intro a; exact List.nodup_nil
  | cons k rest ih =>
    intro a
    simp only [ordFrom, List.map_cons, List.nodup_cons]
    refine ⟨?_, ih (a + 1)⟩
    intro hx
    obtain ⟨p, hp, hpe⟩ := List.mem_map.mp hx
    have := ordFrom_mem_bound rest (a + 1) p hp
    omega

theorem insertFresh (c : Nat) (v : T) :
    ∀ (ks : List Str) (st : CacheState T),
      st.maxSize = c → ks.Nodup →
      (∀ k ∈ ks, ¬ k ∈ st.entries.map Prod.fst) →
      st.entries.map Prod.fst = st.accessOrder.map Prod.fst →
      st.entries.length + ks.length ≤ c →
      (ks.foldl (fun acc k2 => cacheSet acc k2 v) st) =
        { entries := st.entries ++ ks.map (fun k2 => (k2, v)),
          accessOrder := st.accessOrder ++ ordFrom st.accessCounter ks,
          accessCounter := st.accessCounter + ks.length,
          maxSize := st.maxSize, hits := st.hits, misses := st.misses,
          evictions := st.evictions } := by
  intro ks
  induction ks with
  | nil =>
    intro st hms hnd hfresh heq hlen
    simp only [List.foldl_nil, List.map_nil, List.append_nil, ordFrom,
      List.length_nil, Nat.add_zero]
  | cons k rest ih =>
    intro st hms hnd hfresh heq hlen
    rw [List.nodup_cons] at hnd
    obtain ⟨hkrest, hndrest⟩ := hnd
    have hkfresh : ¬ k ∈ st.entries.map Prod.fst :=
      hfresh k (List.mem_cons_self _ _)
    have hkfresh2 : ¬ k ∈ st.accessOrder.map Prod.fst := heq ▸ hkfresh
    simp only [List.length_cons] at hlen
    have hstep : cacheSet st k v =
        { entries := st.entries ++ [(k, v)],
          accessOrder := st.accessOrder ++ [(k, st.accessCounter)],
          accessCounter := st.accessCounter + 1,
          maxSize := st.maxSize, hits := st.hits, misses := st.misses,
          evictions := st.evictions } := by
      unfold cacheSet
      rw [if_neg (by omega : ¬ st.maxSize = 0),
        if_neg (fun hx => hkfresh ((alHas_iff_mem _ _).mp hx)),
        if_neg (by omega : ¬ st.entries.length ≥ st.maxSize)]
      simp only
      rw [alSet_of_not_mem _ _ _ hkfresh, alSet_of_not_mem _ _ _ hkfresh2]
    simp only [List.foldl_cons]
    rw [hstep]
    rw [ih _ (by simpa using hms) hndrest ?_ ?_ ?_]
    · have hcnt : st.accessCounter + 1 + rest.length = st.accessCounter + (rest.length + 1) := by
        omega
      simp only [List.map_cons, ordFrom, List.length_cons, List.append_assoc,
        List.cons_append, List.nil_append, hcnt]
    · intro k2 hk2
      simp only [List.map_append, List.map_cons, List.map_nil]
      intro hx
      rcases List.mem_append.mp hx with hx | hx
      · exact hfresh k2 (List.mem_cons_of_mem _ hk2) hx
      · rw [List.mem_singleton] at hx
        subst hx
        exact hkrest hk2
    · simp only [List.map_append, List.map_cons, List.map_nil, heq]
    · simp only [List.length_append, List.length_cons, List.length_nil]
      omega

theorem mkCache_maxSize (T : Type) (n : Nat) : (mkCache T n).maxSize = n := by
  simp only [mkCache]
  rw [max_eq_right (by exact_mod_cast Nat.zero_le n)]
  exact Int.toNat_natCast n

theorem mapPair_fst (v : T) : ∀ (ks : List Str),
    (ks.map (fun k => (k, v))).map Prod.fst = ks := by
  intro ks
  induction ks with
  | nil => rfl
  | cons k rest ih => simp only [List.map_cons, ih]

theorem insertFresh_mkCache (T : Type) (v : T) (ks : List Str) (hnd : ks.Nodup) :
    (ks.foldl (fun acc k2 => cacheSet acc k2 v) (mkCache T ks.length)) =
      { entries := ks.map (fun k2 => (k2, v)),
        accessOrder := ordFrom 0 ks,
        accessCounter := ks.length,
        maxSize := ks.length, hits := 0, misses := 0, evictions := 0 } := by
  rw [insertFresh ks.length v ks (mkCache T ks.length) (mkCache_maxSize T ks.length) hnd
    (by intro k hk; simp [mkCache]) (by rfl) (by simp [mkCache])]
  simp only [mkCache, List.nil_append, Nat.zero_add]
  rw [max_eq_right (by exact_mod_cast Nat.zero_le ks.length), Int.toNat_natCast]

theorem foldState_inv (T : Type) (v : T) (ks : List Str) (hnd : ks.Nodup) :
    CacheInv
      ({ entries := ks.map (fun k2 => (k2, v)),
         accessOrder := ordFrom 0 ks,
         accessCounter := ks.length,
         maxSize := ks.length, hits := 0, misses := 0,
         evictions := 0 } : CacheState T) := by
  refine ⟨?_, ?_, ?_, ?_, ?_⟩
  · simp only
    rw [mapPair_fst, ordFrom_map_fst]
  · simp only
    rw [ordFrom_map_fst]
    exact hnd
  · exact ordFrom_snd_nodup ks 0
  · intro p hp
    have := ordFrom_mem_bound ks 0 p hp
    simp only
    omega
  · intro _
    simp

theorem cache_overflow_evicts_first (T : Type) (v : T) (kf : Str) (krest : List Str)
    (knew : Str) (hnd : (kf :: krest).Nodup) (hknew : ¬ knew ∈ kf :: krest) :
    (cacheSet
        ((kf :: krest).foldl (fun acc k2 => cacheSet acc k2 v)
          (mkCache T (kf :: krest).length))
        knew v).entries.map Prod.fst = krest ++ [knew] := by
  rw [insertFresh_mkCache T v (kf :: krest) hnd]
  have hinv := foldState_inv T v (kf :: krest) hnd
  have hknot : ¬ knew ∈ ((kf :: krest).map (fun k2 => (k2, v))).map Prod.fst := by
    rw [mapPair_fst]
    exact hknew
  have hhas : alHas ((kf :: krest).map (fun k2 => (k2, v))) knew = false := by
    rw [Bool.eq_false_iff]
    intro hx
    exact hknot ((alHas_iff_mem _ _).mp hx)
  obtain ⟨km, tm, hf, hmem, hstrict, hkeys⟩ :=
    cacheSet_evicts_lru _ knew v hinv (by simp) (by simp) hhas
  have hkm : km = kf := by
    by_contra hne
    have h0 : (kf, 0) ∈ ordFrom 0 (kf :: krest) := by
      simp only [ordFrom]
      exact List.mem_cons_self _ _
    have := hstrict (kf, 0) h0 (fun hx => hne (hx ▸ rfl))
    omega
  rw [hkeys, hkm, mapPair_fst, List.erase_cons_head]

theorem cache_get_prevents_eviction (T : Type) (v : T) (k0 k1 : Str)
    (rest : List Str) (knew : Str)
    (hnd : (k0 :: k1 :: rest).Nodup) (hknew : ¬ knew ∈ k0 :: k1 :: rest) :
    (cacheSet
        ((cacheGet
            ((k0 :: k1 :: rest).foldl (fun acc k2 => cacheSet acc k2 v)
              (mkCache T (k0 :: k1 :: rest).length))
            k0).2)
        knew v).entries.map Prod.fst = (k0 :: rest) ++ [knew] ∧
    k0 ∈ (cacheSet
        ((cacheGet
            ((k0 :: k1 :: rest).foldl (fun acc k2 => cacheSet acc k2 v)
              (mkCache T (k0 :: k1 :: rest).length))
            k0).2)
        knew v).entries.map Prod.fst ∧
    ¬ k1 ∈ (cacheSet
        ((cacheGet
            ((k0 :: k1 :: rest).foldl (fun acc k2 => cacheSet acc k2 v)
              (mkCache T (k0 :: k1 :: rest).length))
            k0).2)
        knew v).entries.map Prod.fst := by
  rw [List.nodup_cons] at hnd
  obtain ⟨hk0, hnd1⟩ := hnd
  rw [List.nodup_cons] at hnd1
  obtain ⟨hk1, hndrest⟩ := hnd1
  have hk01 : ¬ k0 = k1 := fun hx => hk0 (hx ▸ List.mem_cons_self _ _)
  rw [insertFresh_mkCache T v (k0 :: k1 :: rest)
    (by rw [List.nodup_cons]; exact ⟨hk0, by rw [List.nodup_cons]; exact ⟨hk1, hndrest⟩⟩)]
  have hgetstep :
      (cacheGet
        ({ entries := (k0 :: k1 :: rest).map (fun k2 => (k2, v)),
           accessOrder := ordFrom 0 (k0 :: k1 :: rest),
           accessCounter := (k0 :: k1 :: rest).length,
           maxSize := (k0 :: k1 :: rest).length, hits := 0, misses := 0,
           evictions := 0 } : CacheState T) k0).2 =
      { entries := (k0 :: k1 :: rest).map (fun k2 => (k2, v)),
        accessOrder := (k0, (k0 :: k1 :: rest).length) :: ordFrom 1 (k1 :: rest),
        accessCounter := (k0 :: k1 :: rest).length + 1,
        maxSize := (k0 :: k1 :: rest).length, hits := 1, misses := 0,
        evictions := 0 } := by
    unfold cacheGet
    rw [if_pos ?_]
    · simp only [ordFrom, alSet, List.map_cons]
      rw [if_pos (by simp)]
    · rw [alHas_iff_mem, mapPair_fst]
      exact List.mem_cons_self _ _
  rw [hgetstep]
  have hlen : (k0 :: k1 :: rest).length = rest.length + 2 := by simp
  have hinv1 : CacheInv
      ({ entries := (k0 :: k1 :: rest).map (fun k2 => (k2, v)),
         accessOrder := (k0, (k0 :: k1 :: rest).length) :: ordFrom 1 (k1 :: rest),
         accessCounter := (k0 :: k1 :: rest).length + 1,
         maxSize := (k0 :: k1 :: rest).length, hits := 1, misses := 0,
         evictions := 0 } : CacheState T) := by
    refine ⟨?_, ?_, ?_, ?_, ?_⟩
    · simp only
      rw [mapPair_fst, List.map_cons, ordFrom_map_fst]
    · simp only
      rw [List.map_cons, ordFrom_map_fst]
      rw [List.nodup_cons]
      refine ⟨hk0, ?_⟩
      rw [List.nodup_cons]
      exact ⟨hk1, hndrest⟩
    · simp only [List.map_cons, List.nodup_cons]
      refine ⟨?_, ordFrom_snd_nodup (k1 :: rest) 1⟩
      intro hx
      obtain ⟨p, hp, hpe⟩ := List.mem_map.mp hx
      have := ordFrom_mem_bound (k1 :: rest) 1 p hp
      simp only [List.length_cons] at this hpe
      omega
    · intro p hp
      simp only at hp ⊢
      rcases List.mem_cons.mp hp with hp | hp
      · subst hp
        omega
      · have := ordFrom_mem_bound (k1 :: rest) 1 p hp
        simp only [List.length_cons] at this ⊢
        omega
    · intro _
      simp
  have hhas : alHas ((k0 :: k1 :: rest).map (fun k2 => (k2, v))) knew = false := by
    rw [Bool.eq_false_iff]
    intro hx
    have := (alHas_iff_mem _ _).mp hx
    rw [mapPair_fst] at this
    exact hknew this
  obtain ⟨km, tm, hf, hmem, hstrict, hkeys⟩ :=
    cacheSet_evicts_lru _ knew v hinv1 (by simp) (by simp) hhas
  · have hkm : km = k1 := by
      by_contra hne
      have h1 : (k1, 1) ∈
          (k0, (k0 :: k1 :: rest).length) :: ordFrom 1 (k1 :: rest) := by
        refine List.mem_cons_of_mem _ ?_
        simp only [ordFrom]
        exact List.mem_cons_self _ _
      have htm1 := hstrict (k1, 1) h1 (fun hx => hne (hx ▸ rfl))
      have htm0 : tm = 0 := by omega
      rcases List.mem_cons.mp hmem with hx | hx
      · have : tm = (k0 :: k1 :: rest).length := congrArg Prod.snd hx
        rw [hlen] at this
        omega
      · have := ordFrom_mem_bound (k1 :: rest) 1 (km, tm) hx
        simp only at this
        omega
    have herase :
        (((k0 :: k1 :: rest).map (fun k2 => (k2, v))).map Prod.fst).erase k1 =
          k0 :: rest := by
      rw [mapPair_fst, List.erase_cons_tail, List.erase_cons_head]
      simp [hk01]
    rw [hkeys, hkm, herase]
    refine ⟨rfl, ?_, ?_⟩
    · exact List.mem_append.mpr (Or.inl (List.mem_cons_self _ _))
    · intro hx
      rcases List.mem_append.mp hx with hx | hx
      · rcases List.mem_cons.mp hx with hx | hx
        · exact hk01 hx.symm
        · exact hk1 hx
      · rw [List.mem_singleton] at hx
        exact hknew (hx ▸ List.mem_cons_of_mem _ (List.mem_cons_self _ _))

/-- Claim C8 (amended): on a well-formed cache at capacity, inserting a new
key evicts exactly the entry whose recency marker is strictly smallest.
Inserting capacity-plus-one distinct keys into a fresh cache with no
intervening get evicts the first-inserted key and keeps the last.  Getting
the oldest key just before such an insertion prevents that key's eviction
when the capacity is at least two (the second-oldest entry is evicted
instead); at capacity one the freshly-got key is itself the only, hence
least-recently-used, entry and is still evicted. -/
theorem claim_C8_lru_eviction :
    (∀ (T : Type) (s : CacheState T) (k : Str) (v : T),
      CacheInv s → 1 ≤ s.maxSize → s.entries.length = s.maxSize →
      alHas s.entries k = false →
      ∃ km tm, findLRU s.accessOrder none = some (km, tm) ∧
        (km, tm) ∈ s.accessOrder ∧
        (∀ p ∈ s.accessOrder, p.1 ≠ km → tm < p.2) ∧
        (cacheSet s k v).entries.map Prod.fst =
          ((s.entries.map Prod.fst).erase km) ++ [k]) ∧
    (∀ (T : Type) (v : T) (kf : Str) (krest : List Str) (knew : Str),
      (kf :: krest).Nodup → ¬ knew ∈ kf :: krest →
      (cacheSet
          ((kf :: krest).foldl (fun acc k2 => cacheSet acc k2 v)
            (mkCache T (kf :: krest).length))
          knew v).entries.map Prod.fst = krest ++ [knew]) ∧
    (∀ (T : Type) (v : T) (k0 k1 : Str) (rest : List Str) (knew : Str),
      (k0 :: k1 :: rest).Nodup → ¬ knew ∈ k0 :: k1 :: rest →
      (cacheSet
          ((cacheGet
              ((k0 :: k1 :: rest).foldl (fun acc k2 => cacheSet acc k2 v)
                (mkCache T (k0 :: k1 :: rest).length))
              k0).2)
          knew v).entries.map Prod.fst = (k0 :: rest) ++ [knew] ∧
      k0 ∈ (cacheSet
          ((cacheGet
              ((k0 :: k1 :: rest).foldl (fun acc k2 => cacheSet acc k2 v)
                (mkCache T (k0 :: k1 :: rest).length))
              k0).2)
          knew v).entries.map Prod.fst ∧
      ¬ k1 ∈ (cacheSet
          ((cacheGet
              ((k0 :: k1 :: rest).foldl (fun acc k2 => cacheSet acc k2 v)
                (mkCache T (k0 :: k1 :: rest).length))
              k0).2)
          knew v).entries.map Prod.fst) :=
  ⟨fun T s k v h1 h2 h3 h4 => cacheSet_evicts_lru s k v h1 h2 h3 h4,
   fun T v kf krest knew h1 h2 => cache_overflow_evicts_first T v kf krest knew h1 h2,
   fun T v k0 k1 rest knew h1 h2 =>
     cache_get_prevents_eviction T v k0 k1 rest knew h1 h2⟩

/-- Claim C8 counterexample: at capacity one, getting the only (hence
oldest) key immediately before inserting a new key does not prevent its
eviction — the got key is itself the least recently used and is evicted. -/
theorem claim_C8_counterexample :
    ((cacheSet ((cacheGet (cacheSet (mkCache Nat 1) "a".toList 1) "a".toList).2)
        "b".toList 2).entries.map Prod.fst) = ["b".toList] ∧
      ((cacheSet (mkCache Nat 1) "a".toList 1).entries.map Prod.fst) =
        ["a".toList] := by decide

/-- Claim C8 witness: the amended theorem applied to a concrete capacity-two
cache: keys a then b are inserted, a is got, and inserting c evicts b while
a survives. -/
theorem claim_C8_witness :
    (cacheSet
        ((cacheGet
            (("a".toList :: "b".toList :: ([] : List Str)).foldl
              (fun acc k2 => cacheSet acc k2 (0 : Nat))
              (mkCache Nat ("a".toList :: "b".toList :: ([] : List Str)).length))
            "a".toList).2)
        "c".toList 0).entries.map Prod.fst =
      ("a".toList :: ([] : List Str)) ++ ["c".toList] ∧
    "a".toList ∈ (cacheSet
        ((cacheGet
            (("a".toList :: "b".toList :: ([] : List Str)).foldl
              (fun acc k2 => cacheSet acc k2 (0 : Nat))
              (mkCache Nat ("a".toList :: "b".toList :: ([] : List Str)).length))
            "a".toList).2)
        "c".toList 0).entries.map Prod.fst ∧
    ¬ "b".toList ∈ (cacheSet
        ((cacheGet
            (("a".toList :: "b".toList :: ([] : List Str)).foldl
              (fun acc k2 => cacheSet acc k2 (0 : Nat))
              (mkCache Nat ("a".toList :: "b".toList :: ([] : List Str)).length))
            "a".toList).2)
        "c".toList 0).entries.map Prod.fst :=
  claim_C8_lru_eviction.2.2 Nat 0 "a".toList "b".toList [] "c".toList
    (by decide) (by decide)
